import Mathlib

/-!
Verification of the word-completion matching engine and drag-drop slot model of
`src/letter.js` (tboard).

The stateful JavaScript objects are embedded shallowly:

* `SysState` models one `CompletionSet` together with the `Group`s bound to it
  (each group's homes are abstracted to their current texts, `Option String`,
  `none` for an empty home, exactly what `Home.prototype.text` returns).
* `validate` is `Group.prototype._validate`; `markComplete`, `markIncomplete`
  and `completionCount` are the corresponding `CompletionSet` methods.
  Since `markIncomplete` may reentrantly call `_validate` of the remaining
  claimant, the two functions are defined by mutual recursion on an explicit
  `fuel` bound; all theorems are stated for sufficient fuel (under the
  well-formedness invariant the callback depth never exceeds one).
* Signals model the `_onMatch` / `_onDuplicate` / `_onNoMatch` callbacks; the
  returned signal list records the synchronous callback invocations in order.
* `World` models the `Home` / `Letter` / `Respawner` drag-drop objects for the
  slot-occupancy claims.
-/

/-- A signal delivered to a group's callback during `_validate`. -/
inductive Signal where
  | onMatch (g : Nat)
  | onDuplicate (g : Nat)
  | onNoMatch (g : Nat)
deriving DecidableEq, Repr

/-- Which group a signal was delivered to. -/
def sigGroup : Signal → Nat
  | .onMatch g => g
  | .onDuplicate g => g
  | .onNoMatch g => g

/-- The signals of a list delivered to group `gid`, in order. -/
def sigsFor (gid : Nat) (sigs : List Signal) : List Signal :=
  sigs.filter (fun s => sigGroup s == gid)

/-- State of one `Group`: the current texts of its homes (`Home.prototype.text`:
`none` when the home is empty) and `this._currentCompletion`. -/
structure GroupState where
  slots : List (Option String)
  currentCompletion : Option (List String)
deriving DecidableEq, Repr

/-- State of a `CompletionSet` shared by a list of groups: `this._completions`,
the map `this._complete` (an association list keyed by serialized completion,
mirroring the JS object), and the bound groups (group ids are list indices). -/
structure SysState where
  completions : List (List String)
  complete : List (String × List Nat)
  groups : List GroupState
deriving DecidableEq, Repr

/-- `completionKey`: concatenation of the completion's strings (no separator). -/
def completionKey (completion : List String) : String :=
  completion.foldl (fun k s => k ++ s) ""

/-- First-match lookup in the association list modelling the JS object
`this._complete` (`hasOwnProperty` + read). -/
def lookupKey : List (String × List Nat) → String → Option (List Nat)
  | [], _ => none
  | (k', l) :: rest, k => if k' = k then some l else lookupKey rest k

/-- Write a key in the association list (replace the first binding, or append a
fresh one), modelling assignment to the JS object. -/
def setKey : List (String × List Nat) → String → List Nat → List (String × List Nat)
  | [], k, l => [(k, l)]
  | (k', l') :: rest, k, l => if k' = k then (k, l) :: rest else (k', l') :: setKey rest k l

/-- The claimant list currently recorded for key `k` (empty when absent). -/
def claimantsOf (st : SysState) (k : String) : List Nat :=
  (lookupKey st.complete k).getD []

/-- Replace the element at index `n` (no-op out of range). -/
def listModify (f : α → α) : Nat → List α → List α
  | _, [] => []
  | 0, x :: xs => f x :: xs
  | n + 1, x :: xs => x :: listModify f n xs

/-- The slot texts of group `gid` (empty list for an invalid id). -/
def slotsOf (st : SysState) (gid : Nat) : List (Option String) :=
  match st.groups.get? gid with
  | some g => g.slots
  | none => []

/-- `this._currentCompletion` of group `gid`. -/
def currentOf (st : SysState) (gid : Nat) : Option (List String) :=
  match st.groups.get? gid with
  | some g => g.currentCompletion
  | none => none

/-- Assign `this._currentCompletion` of group `gid`. -/
def setCurrent (st : SysState) (gid : Nat) (v : Option (List String)) : SysState :=
  { st with groups := listModify (fun g => { g with currentCompletion := v }) gid st.groups }

/-- `CompletionSet.prototype.markComplete`: append the group to the claimant
list for the completion's key (creating the list if absent). -/
def markComplete (st : SysState) (completion : List String) (g : Nat) : SysState :=
  let k := completionKey completion
  match lookupKey st.complete k with
  | some l => { st with complete := setKey st.complete k (l ++ [g]) }
  | none => { st with complete := setKey st.complete k [g] }

/-- `CompletionSet.prototype.completionCount`. -/
def completionCount (st : SysState) (completion : List String) : Nat :=
  match lookupKey st.complete (completionKey completion) with
  | some l => l.length
  | none => 0

/-- One position of the elimination loop in `Group.prototype._validate`:
keep completions whose value at index `l` equals the slot text. -/
def filterPos (matchSet : List (List String)) (l : Nat) (text : String) : List (List String) :=
  matchSet.filter (fun m => m.get? l == some text)

/-- The elimination loop of `_validate` over the remaining slots, starting at
position `l`; a falsy slot text (`null` or `""`) empties the match set and
stops the scan. -/
def elimLoop : List (List String) → List (Option String) → Nat → List (List String)
  | matchSet, [], _ => matchSet
  | matchSet, t :: rest, l =>
    match t with
    | none => []
    | some s => if s = "" then [] else elimLoop (filterPos matchSet l s) rest (l + 1)

/-- The filtered match set computed by `_validate` from the completion list and
the group's slot texts. -/
def computeMatches (completions : List (List String)) (slots : List (Option String)) :
    List (List String) :=
  elimLoop completions slots 0

mutual

/-- `CompletionSet.prototype.markIncomplete`: remove the group from the
claimant list of the completion's key (no-op when the key is absent or the
group is not a claimant); if exactly one claimant remains, reentrantly run its
`_validate` (spending one unit of fuel). -/
def markIncomplete (fuel : Nat) (st : SysState) (completion : List String) (g : Nat) :
    SysState × List Signal :=
  let k := completionKey completion
  match lookupKey st.complete k with
  | none => (st, [])
  | some claimList =>
    if claimList.contains g then
      let remaining := claimList.erase g
      let st' : SysState := { st with complete := setKey st.complete k remaining }
      if remaining.length = 1 then
        match fuel with
        | f + 1 => validate f st' (remaining.headD 0)
        | 0 => (st', [])
      else (st', [])
    else (st, [])
termination_by (fuel, 0)

/-- `Group.prototype._validate`: filter the completion list against the slot
texts, release the previous claim, then either register the first surviving
completion (signalling `onMatch` when it had no prior claimants, otherwise
`onDuplicate`) or signal `onNoMatch`. -/
def validate (fuel : Nat) (st : SysState) (gid : Nat) : SysState × List Signal :=
  match st.groups.get? gid with
  | none => (st, [])
  | some g =>
    let matchSet := computeMatches st.completions g.slots
    let rel : SysState × List Signal :=
      match g.currentCompletion with
      | some c =>
        let r := markIncomplete fuel st c gid
        (setCurrent r.1 gid none, r.2)
      | none => (st, [])
    match matchSet with
    | m :: _ =>
      let alreadyUsed := completionCount rel.1 m
      let st2 := markComplete rel.1 m gid
      let st3 := setCurrent st2 gid (some m)
      (st3, rel.2 ++ [if alreadyUsed == 0 then Signal.onMatch gid else Signal.onDuplicate gid])
    | [] => (rel.1, rel.2 ++ [Signal.onNoMatch gid])
termination_by (fuel, 1)

end

/-- The claim-release phase of `_validate`: release the previous claim (if
any) and null out `_currentCompletion`. -/
def releasePhase (fuel : Nat) (st : SysState) (gid : Nat) : SysState × List Signal :=
  match currentOf st gid with
  | some c =>
    let r := markIncomplete fuel st c gid
    (setCurrent r.1 gid none, r.2)
  | none => (st, [])

/-- The state after `markIncomplete` has spliced group `g` out of the claimant
list recorded for key `k` (before any reentrant revalidation). -/
def removeClaim (st : SysState) (k : String) (g : Nat) : SysState :=
  { st with complete := setKey st.complete k ((claimantsOf st k).erase g) }

/-- The predicate a completion must satisfy to survive the elimination loop
from position `l` on: every remaining slot holds a non-falsy text equal to the
completion's value at that position. -/
def matchesFrom : List (Option String) → Nat → List String → Bool
  | [], _, _ => true
  | t :: rest, l, c =>
    match t with
    | none => false
    | some s => if s = "" then false else (c.get? l == some s) && matchesFrom rest (l + 1) c

/-- A completion's per-position values equal the per-slot texts, in order
(the invariant's phrasing). -/
def matchesSlots (slots : List (Option String)) (c : List String) : Prop :=
  ∀ l, (hl : l < slots.length) → c.get? l = slots.get ⟨l, hl⟩

instance (slots : List (Option String)) (c : List String) : Decidable (matchesSlots slots c) :=
  Nat.decidableBallLT slots.length (fun l hl => c.get? l = slots.get ⟨l, hl⟩)

/-- The serialized key of a group's current completion, if any. -/
def keyOfCurrent (st : SysState) (g : Nat) : Option String :=
  (currentOf st g).map completionKey

/-- Claim-table well-formedness, maintained by the implementation: every
recorded claimant is a valid group id, appears exactly once in its list, its
current completion has that key; and every group with a current completion is
recorded as a claimant for it. -/
def wfB (st : SysState) : Bool :=
  (st.complete.all (fun e =>
    (claimantsOf st e.1).all (fun g =>
      decide (g < st.groups.length) &&
      ((claimantsOf st e.1).count g == 1) &&
      (keyOfCurrent st g == some e.1)))) &&
  (List.range st.groups.length).all (fun gid =>
    match currentOf st gid with
    | some c => (claimantsOf st (completionKey c)).contains gid
    | none => true)

/-- Every completion has exactly one value per slot of every group (the spec's
arity assumption on boards). -/
def arityB (st : SysState) : Bool :=
  st.groups.all (fun g => st.completions.all (fun c => c.length == g.slots.length))

/-- Every group's current completion is a completion of the set that its slot
texts still select (the state left behind by a successful `_validate`). -/
def currentOkB (st : SysState) : Bool :=
  st.groups.all (fun g =>
    match g.currentCompletion with
    | some c => st.completions.contains c && matchesFrom g.slots 0 c
    | none => true)

/-- The reachable-state invariant used for the idempotence claim. -/
def goodState (st : SysState) : Bool := wfB st && arityB st && currentOkB st

/-! ### Drag-drop model: `Home`, `Letter`, `Respawner`

Group-revalidation callbacks (`_afterAddLetter` / `_afterRemoveLetter`) never
mutate any home's letter list, so they are omitted from this model of letter
movement. Positions come from each home's cached transform (`update`). -/

/-- A `Home`: its position (transform translation), the `_letters` list
(letter ids) and the respawner adapting it, if any. -/
structure HomeSt where
  px : Int
  py : Int
  letters : List Nat
  resp : Option Nat
deriving DecidableEq, Repr

/-- A `Letter`: `this._home`, `this.origin` (set on respawned letters) and
`this._originalHome`. -/
structure LetterSt where
  home : Option Nat
  origin : Option Nat
  originalHome : Nat
deriving DecidableEq, Repr

/-- A `Respawner`: its adapted home and `this._letter`. -/
structure RespSt where
  homeId : Nat
  letter : Option Nat
deriving DecidableEq, Repr

/-- The drag-drop world: `homeInstances` (in registration order), the live
letters and the respawners. -/
structure World where
  homes : List HomeSt
  letters : List LetterSt
  resps : List RespSt
deriving DecidableEq, Repr

/-- Replace home `h`'s letter list by `f` applied to it. -/
def modifyHomeLetters (w : World) (h : Nat) (f : List Nat → List Nat) : World :=
  { w with homes := listModify (fun hs => { hs with letters := f hs.letters }) h w.homes }

/-- Assign letter `l`'s `_home` field. -/
def setLetterHome (w : World) (l : Nat) (v : Option Nat) : World :=
  { w with letters := listModify (fun ls => { ls with home := v }) l w.letters }

/-- Assign respawner `r`'s `_letter` field. -/
def setRespLetter (w : World) (r : Nat) (v : Option Nat) : World :=
  { w with resps := listModify (fun rs => { rs with letter := v }) r w.resps }

/-- `isEmpty`, with the per-instance override: a plain home is empty when its
letter list is; a respawner-adapted home answers true only for a letter whose
`origin` is that home (so with no argument it always answers false). -/
def isEmptyCall (w : World) (h : Nat) (arg : Option Nat) : Bool :=
  match w.homes.get? h with
  | none => false
  | some hs =>
    match hs.resp with
    | none => hs.letters.length == 0
    | some _ =>
      match arg with
      | some l =>
        match w.letters.get? l with
        | some ls => ls.origin == some h
        | none => false
      | none => false

/-- `findNearestHome`: scan `homeInstances` in order, skipping non-empty homes
(per `isEmpty()` with no argument), tracking the strictly nearest squared
distance; return it only when closer than `maxDistance` squared. -/
def findNearestHome (w : World) (x y maxDistance : Int) : Option Nat :=
  let maxD := maxDistance * maxDistance
  let scan := (List.range w.homes.length).foldl
    (fun (acc : Option Nat × Option Int) i =>
      if isEmptyCall w i none then
        match w.homes.get? i with
        | none => acc
        | some hs =>
          let dx := x - hs.px
          let dy := y - hs.py
          let d := dx * dx + dy * dy
          match acc.2 with
          | none => (some i, some d)
          | some sd => if d < sd then (some i, some d) else acc
      else acc)
    (none, none)
  match scan.2 with
  | some sd => if sd < maxD then scan.1 else none
  | none => none

/-- `Respawner.prototype._replenish`: if the respawner holds no letter, create
a fresh one in its home (the constructor's `addLetter` runs with
`_replenishing` set, so `_onAddLetter` is skipped) and record it. -/
def replenish (w : World) (r : Nat) : World :=
  match w.resps.get? r with
  | none => w
  | some rs =>
    match rs.letter with
    | some _ => w
    | none =>
      let n := w.letters.length
      let h := rs.homeId
      let w1 := { w with letters := w.letters ++ [⟨some h, some h, h⟩] }
      let w2 := modifyHomeLetters w1 h (fun letters => if letters.contains n then letters else letters ++ [n])
      setRespLetter w2 r (some n)

/-- `Respawner.prototype._onRemoveLetter` (when not purging): forget the
removed letter if it is the held one, then replenish. -/
def respOnRemove (w : World) (r : Nat) (arg : Option Nat) : World :=
  match w.resps.get? r with
  | none => w
  | some rs =>
    let w1 := if rs.letter == arg then setRespLetter w r none else w
    replenish w1 r

/-- `Home.prototype.removeLetter`: fire `_onRemoveLetter` (suppressed while the
respawner is purging), then splice out the letter if present; `arg = none`
models a call with `undefined`, whose `indexOf` is `-1`. -/
def removeLetter (w : World) (h : Nat) (arg : Option Nat) (purging : Bool) : World :=
  let w1 :=
    match (w.homes.get? h).bind HomeSt.resp with
    | some r => if purging then w else respOnRemove w r arg
    | none => w
  match arg with
  | some l => modifyHomeLetters w1 h (fun letters => letters.erase l)
  | none => w1

/-- `Letter.prototype.disappearAndRemove`: the source passes `this._letter` to
`removeLetter`, but `_letter` is a `Respawner` field absent on `Letter`, so the
argument is `undefined` (`none`) and the splice never removes anything. -/
def disappearAndRemove (w : World) (l2 : Nat) (purging : Bool) : World :=
  match (w.letters.get? l2).bind LetterSt.home with
  | some h => removeLetter w h none purging
  | none => w

/-- `Respawner.prototype._onAddLetter` (when not replenishing): purge the held
letter, if any, then hold the incoming one. -/
def respOnAdd (w : World) (r : Nat) (l : Nat) : World :=
  match w.resps.get? r with
  | none => w
  | some rs =>
    let w1 :=
      match rs.letter with
      | some l2 => disappearAndRemove w l2 true
      | none => w
    setRespLetter w1 r (some l)

/-- `Home.prototype.addLetter`: fire `_onAddLetter`, then push the letter if
absent. -/
def addLetter (w : World) (h : Nat) (l : Nat) : World :=
  let w1 :=
    match (w.homes.get? h).bind HomeSt.resp with
    | some r => respOnAdd w r l
    | none => w
  modifyHomeLetters w1 h (fun letters => if letters.contains l then letters else letters ++ [l])

/-- `Letter.prototype._start` (drag begin): leave the current home. -/
def letterStart (w : World) (l : Nat) : World :=
  match (w.letters.get? l).bind LetterSt.home with
  | none => w
  | some h =>
    let w1 := removeLetter w h (some l) false
    setLetterHome w1 l none

/-- `Letter.prototype._end` (drop at translation `(x, y)`): find the nearest
empty home within 128, else fall back to the original home when it reports
empty for this letter, else search within 65536; join the chosen home. -/
def letterEnd (w : World) (l : Nat) (x y : Int) : World :=
  match w.letters.get? l with
  | none => w
  | some ls =>
    let near := findNearestHome w x y 128
    let newHome :=
      match near with
      | some h => some h
      | none =>
        if isEmptyCall w ls.originalHome (some l) then some ls.originalHome
        else findNearestHome w x y 65536
    match newHome with
    | some h => addLetter (setLetterHome w l (some h)) h l
    | none => w

/-- A board with a single respawner (as built for each entry of
`definition.letters`): one adapted home, replenished once at construction. -/
def mkRespawnerWorld : World :=
  replenish { homes := [⟨0, 0, [], some 0⟩], letters := [], resps := [⟨0, none⟩] } 0

/-- A one-group board over the completions cat/dog with c-a-t spelled out. -/
def wStA : SysState :=
  { completions := [["c", "a", "t"], ["d", "o", "g"]],
    complete := [],
    groups := [⟨[some "c", some "a", some "t"], none⟩] }

/-- A two-group board sharing one completion set, both groups having spelled
and claimed cat (the duplicate configuration). -/
def wStB : SysState :=
  { completions := [["c", "a", "t"]],
    complete := [("cat", [0, 1])],
    groups := [⟨[some "c", some "a", some "t"], some ["c", "a", "t"]⟩,
               ⟨[some "c", some "a", some "t"], some ["c", "a", "t"]⟩] }

/-- A one-group board with the middle slot empty. -/
def wStC : SysState :=
  { completions := [["c", "a", "t"]],
    complete := [],
    groups := [⟨[some "c", none, some "t"], none⟩] }

/-- Frame relation: the completion list, the number of groups and every
group's slot texts agree (only claims and current completions may differ). -/
def sameFrame (st st' : SysState) : Prop :=
  st'.completions = st.completions ∧ st'.groups.length = st.groups.length ∧
  ∀ i, slotsOf st' i = slotsOf st i

/-! ### Association-list and list-update lemmas -/

theorem lookupKey_setKey_self (l : List (String × List Nat)) (k : String) (v : List Nat) :
    lookupKey (setKey l k v) k = some v := by
  induction l with
  | nil => simp [setKey, lookupKey]
  | cons e rest ih =>
    by_cases h : e.1 = k
    · simp [setKey, h, lookupKey]
    · simp [setKey, h, lookupKey, ih]

theorem lookupKey_setKey_ne (l : List (String × List Nat)) (k k' : String) (v : List Nat)
    (h : k' ≠ k) : lookupKey (setKey l k v) k' = lookupKey l k' := by
  induction l with
  | nil =>
    simp only [setKey, lookupKey, if_neg (show ¬k = k' from fun hh => h hh.symm)]
  | cons e rest ih =>
    by_cases he : e.1 = k
    · simp [setKey, he, lookupKey, Ne.symm h, he ▸ (Ne.symm h)]
    · simp only [setKey, if_neg he, lookupKey]
      by_cases he' : e.1 = k'
      · simp [he']
      · simp [he', ih]

theorem setKey_setKey (l : List (String × List Nat)) (k : String) (v v' : List Nat) :
    setKey (setKey l k v) k v' = setKey l k v' := by
  induction l with
  | nil => simp [setKey]
  | cons e rest ih =>
    by_cases h : e.1 = k
    · simp [setKey, h]
    · simp [setKey, h, ih]

theorem setKey_lookup_self (l : List (String × List Nat)) (k : String) (v : List Nat)
    (h : lookupKey l k = some v) : setKey l k v = l := by
  induction l with
  | nil => simp [lookupKey] at h
  | cons e rest ih =>
    by_cases he : e.1 = k
    · simp only [lookupKey, if_pos he] at h
      cases h
      cases e
      simp_all [setKey]
    · simp only [lookupKey, if_neg he] at h
      simp [setKey, he, ih h]

theorem lookupKey_mem (l : List (String × List Nat)) (k : String) (v : List Nat)
    (h : lookupKey l k = some v) : (k, v) ∈ l := by
  induction l with
  | nil => simp [lookupKey] at h
  | cons e rest ih =>
    by_cases he : e.1 = k
    · simp only [lookupKey, if_pos he] at h
      cases h
      cases e
      simp_all
    · simp only [lookupKey, if_neg he] at h
      exact List.mem_cons_of_mem _ (ih h)

theorem listModify_get? (f : α → α) (n : Nat) (l : List α) (i : Nat) :
    (listModify f n l).get? i = if i = n then (l.get? i).map f else l.get? i := by
  induction l generalizing n i with
  | nil => simp [listModify]
  | cons x xs ih =>
    cases n with
    | zero =>
      cases i with
      | zero => simp [listModify]
      | succ j => simp [listModify]
    | succ m =>
      cases i with
      | zero => simp [listModify]
      | succ j => simpa [listModify, Nat.succ_inj] using ih m j

theorem listModify_length (f : α → α) (n : Nat) (l : List α) :
    (listModify f n l).length = l.length := by
  induction l generalizing n with
  | nil => simp [listModify]
  | cons x xs ih =>
    cases n with
    | zero => simp [listModify]
    | succ m => simp [listModify, ih]

theorem listModify_listModify (f g : α → α) (n : Nat) (l : List α) :
    listModify f n (listModify g n l) = listModify (fun x => f (g x)) n l := by
  induction l generalizing n with
  | nil => simp [listModify]
  | cons x xs ih =>
    cases n with
    | zero => simp [listModify]
    | succ m => simp [listModify, ih]

theorem listModify_eq_self (f : α → α) (n : Nat) (l : List α)
    (h : ∀ x, l.get? n = some x → f x = x) : listModify f n l = l := by
  induction l generalizing n with
  | nil => simp [listModify]
  | cons x xs ih =>
    cases n with
    | zero => simp [listModify, h x rfl]
    | succ m =>
      simp only [listModify, List.cons.injEq, true_and]
      exact ih m (fun y hy => h y hy)

/-! ### State-accessor lemmas -/

@[simp] theorem setCurrent_complete (st : SysState) (gid : Nat) (v : Option (List String)) :
    (setCurrent st gid v).complete = st.complete := rfl

@[simp] theorem setCurrent_completions (st : SysState) (gid : Nat) (v : Option (List String)) :
    (setCurrent st gid v).completions = st.completions := rfl

@[simp] theorem claimantsOf_setCurrent (st : SysState) (gid : Nat) (v : Option (List String))
    (k : String) : claimantsOf (setCurrent st gid v) k = claimantsOf st k := rfl

@[simp] theorem setCurrent_groups_length (st : SysState) (gid : Nat) (v : Option (List String)) :
    (setCurrent st gid v).groups.length = st.groups.length := by
  simp [setCurrent, listModify_length]

theorem currentOf_setCurrent_self (st : SysState) (gid : Nat) (v : Option (List String))
    (h : gid < st.groups.length) : currentOf (setCurrent st gid v) gid = v := by
  obtain ⟨g, hg⟩ : ∃ g, st.groups.get? gid = some g := by
    cases hx : st.groups.get? gid with
    | none => rw [List.get?_eq_none] at hx; omega
    | some g => exact ⟨g, rfl⟩
  simp only [currentOf, setCurrent]
  rw [listModify_get?, if_pos rfl, hg, Option.map_some']

theorem currentOf_setCurrent_ne (st : SysState) (gid gid' : Nat) (v : Option (List String))
    (h : gid' ≠ gid) : currentOf (setCurrent st gid v) gid' = currentOf st gid' := by
  simp only [currentOf, setCurrent, listModify_get?, if_neg h]

@[simp] theorem slotsOf_setCurrent (st : SysState) (gid gid' : Nat) (v : Option (List String)) :
    slotsOf (setCurrent st gid v) gid' = slotsOf st gid' := by
  by_cases h : gid' = gid
  · subst h
    simp only [slotsOf, setCurrent, listModify_get?, if_pos rfl]
    cases st.groups.get? gid' <;> rfl
  · simp only [slotsOf, setCurrent, listModify_get?, if_neg h]

theorem setCurrent_setCurrent (st : SysState) (gid : Nat) (v v' : Option (List String)) :
    setCurrent (setCurrent st gid v) gid v' = setCurrent st gid v' := by
  simp [setCurrent, listModify_listModify]

theorem setCurrent_currentOf_self (st : SysState) (gid : Nat) (v : Option (List String))
    (h : currentOf st gid = v) : setCurrent st gid v = st := by
  have : listModify (fun g => { g with currentCompletion := v }) gid st.groups = st.groups := by
    apply listModify_eq_self
    intro x hx
    have : currentOf st gid = x.currentCompletion := by simp only [currentOf, hx]
    rw [h] at this
    cases x
    simp_all
  simp [setCurrent, this]

theorem markComplete_complete (st : SysState) (c : List String) (g : Nat) :
    (markComplete st c g).complete =
      setKey st.complete (completionKey c) (claimantsOf st (completionKey c) ++ [g]) := by
  rw [markComplete]
  cases h : lookupKey st.complete (completionKey c) <;> simp [claimantsOf, h]

@[simp] theorem markComplete_groups (st : SysState) (c : List String) (g : Nat) :
    (markComplete st c g).groups = st.groups := by
  rw [markComplete]
  cases h : lookupKey st.complete (completionKey c) <;> rfl

@[simp] theorem markComplete_completions (st : SysState) (c : List String) (g : Nat) :
    (markComplete st c g).completions = st.completions := by
  rw [markComplete]
  cases h : lookupKey st.complete (completionKey c) <;> rfl

theorem completionCount_eq_length (st : SysState) (c : List String) :
    completionCount st c = (claimantsOf st (completionKey c)).length := by
  rw [completionCount]
  cases h : lookupKey st.complete (completionKey c) <;> simp [claimantsOf, h]

theorem claimantsOf_lookup (st : SysState) (k : String) (g : Nat)
    (h : g ∈ claimantsOf st k) : lookupKey st.complete k = some (claimantsOf st k) := by
  cases hl : lookupKey st.complete k with
  | none => rw [claimantsOf, hl] at h; simp at h
  | some L => simp only [claimantsOf, hl, Option.getD_some]

theorem contains_iff_mem {α : Type} [BEq α] [LawfulBEq α] (l : List α) (a : α) :
    l.contains a = true ↔ a ∈ l := by
  rw [List.contains]
  exact List.elem_iff

/-! ### Characterizing the elimination loop -/

theorem filter_head?_eq_find? (p : α → Bool) (l : List α) :
    (l.filter p).head? = l.find? p := by
  induction l with
  | nil => rfl
  | cons x xs ih =>
    by_cases h : p x
    · simp [List.filter_cons, h, List.find?_cons, ih]
    · simp only [List.filter_cons, List.find?_cons] at *
      simp [h, ih]

theorem elimLoop_eq_filter (slots : List (Option String)) (l : Nat)
    (matchSet : List (List String)) :
    elimLoop matchSet slots l = matchSet.filter (fun c => matchesFrom slots l c) := by
  induction slots generalizing l matchSet with
  | nil => simp [elimLoop, matchesFrom]
  | cons t rest ih =>
    cases t with
    | none => simp [elimLoop, matchesFrom]
    | some s =>
      by_cases hs : s = ""
      · simp [elimLoop, matchesFrom, hs]
      · rw [elimLoop]
        simp only [if_neg hs]
        rw [ih, filterPos, List.filter_filter]
        apply List.filter_congr
        intro c _
        simp only [matchesFrom, if_neg hs]
        rw [Bool.and_comm]

theorem matchesFrom_iff (slots : List (Option String)) (l : Nat) (c : List String) :
    matchesFrom slots l c = true ↔
      ∀ i, (hi : i < slots.length) →
        ∃ s, slots.get ⟨i, hi⟩ = some s ∧ s ≠ "" ∧ c.get? (l + i) = some s := by
  induction slots generalizing l with
  | nil => simp [matchesFrom]
  | cons t rest ih =>
    cases t with
    | none =>
      simp only [matchesFrom]
      constructor
      · intro h
        exact absurd h (by simp)
      · intro h
        obtain ⟨s, hs, -, -⟩ := h 0 (by simp)
        simp at hs
    | some s =>
      by_cases hs : s = ""
      · subst hs
        simp only [matchesFrom, if_pos rfl]
        constructor
        · intro h
          exact absurd h (by simp)
        · intro h
          obtain ⟨s', hs', hne, -⟩ := h 0 (by simp)
          simp only [List.get] at hs'
          exact absurd (Option.some_injective _ hs').symm hne
      · simp only [matchesFrom, if_neg hs, Bool.and_eq_true, beq_iff_eq, ih]
        constructor
        · rintro ⟨h0, hrest⟩ i hi
          cases i with
          | zero => exact ⟨s, rfl, hs, by simpa using h0⟩
          | succ j =>
            obtain ⟨s', h1, h2, h3⟩ := hrest j (by simpa using Nat.lt_of_succ_lt_succ hi)
            exact ⟨s', h1, h2, by rw [show l + (j + 1) = l + 1 + j by omega]; exact h3⟩
        · intro h
          constructor
          · obtain ⟨s', h1, h2, h3⟩ := h 0 (by simp)
            simp only [List.get] at h1
            cases Option.some_injective _ h1
            simpa using h3
          · intro j hj
            obtain ⟨s', h1, h2, h3⟩ := h (j + 1) (by simpa using Nat.succ_lt_succ hj)
            exact ⟨s', h1, h2, by rw [show l + 1 + j = l + (j + 1) by omega]; exact h3⟩

theorem matchesFrom_of_none_mem (slots : List (Option String)) (l : Nat) (c : List String)
    (h : none ∈ slots) : matchesFrom slots l c = false := by
  induction slots generalizing l with
  | nil => simp at h
  | cons t rest ih =>
    cases t with
    | none => rfl
    | some s =>
      have hrest : none ∈ rest := by
        rcases List.mem_cons.mp h with h1 | h1
        · simp at h1
        · exact h1
      by_cases hs : s = ""
      · simp [matchesFrom, hs]
      · simp [matchesFrom, hs, ih _ hrest]

theorem computeMatches_eq_filter (completions : List (List String))
    (slots : List (Option String)) :
    computeMatches completions slots = completions.filter (fun c => matchesFrom slots 0 c) :=
  elimLoop_eq_filter slots 0 completions

theorem computeMatches_nil_of_none_mem (completions : List (List String))
    (slots : List (Option String)) (h : none ∈ slots) :
    computeMatches completions slots = [] := by
  rw [computeMatches_eq_filter]
  apply List.filter_eq_nil_iff.mpr
  intro c _
  simp [matchesFrom_of_none_mem slots 0 c h]

theorem mem_computeMatches (completions : List (List String)) (slots : List (Option String))
    (c : List String) :
    c ∈ computeMatches completions slots ↔ c ∈ completions ∧ matchesFrom slots 0 c = true := by
  rw [computeMatches_eq_filter]
  exact List.mem_filter

theorem computeMatches_head? (completions : List (List String)) (slots : List (Option String)) :
    (computeMatches completions slots).head? =
      completions.find? (fun c => matchesFrom slots 0 c) := by
  rw [computeMatches_eq_filter]
  exact filter_head?_eq_find? _ _

theorem matchesSlots_of_matchesFrom (slots : List (Option String)) (c : List String)
    (h : matchesFrom slots 0 c = true) : matchesSlots slots c := by
  rw [matchesFrom_iff] at h
  intro l hl
  obtain ⟨s, h1, -, h3⟩ := h l hl
  rw [h1]
  simpa using h3

theorem matchesFrom_iff_matchesSlots (slots : List (Option String)) (c : List String)
    (hs : ∀ t ∈ slots, t ≠ none ∧ t ≠ some "") :
    matchesFrom slots 0 c = true ↔ matchesSlots slots c := by
  constructor
  · exact matchesSlots_of_matchesFrom slots c
  · intro h
    rw [matchesFrom_iff]
    intro i hi
    obtain ⟨h1, h2⟩ := hs (slots.get ⟨i, hi⟩) (slots.get_mem i hi)
    cases hval : slots.get ⟨i, hi⟩ with
    | none => exact absurd hval h1
    | some s =>
      refine ⟨s, rfl, ?_, ?_⟩
      · intro he
        rw [he] at hval
        exact h2 hval
      · have := h i hi
        rw [hval] at this
        simpa using this

theorem matchesSlots_unique (slots : List (Option String)) (c1 c2 : List String)
    (h1 : matchesSlots slots c1) (h2 : matchesSlots slots c2)
    (hl1 : c1.length = slots.length) (hl2 : c2.length = slots.length) : c1 = c2 := by
  apply List.ext_get (by omega)
  intro n hn1 hn2
  have hn : n < slots.length := by omega
  have e1 := h1 n hn
  have e2 := h2 n hn
  rw [List.get?_eq_get hn1] at e1
  rw [List.get?_eq_get hn2] at e2
  rw [← e2] at e1
  exact Option.some_injective _ e1

theorem validate_eq (fuel : Nat) (st : SysState) (gid : Nat)
    (g : GroupState) (hg : st.groups.get? gid = some g) :
    validate fuel st gid =
      match computeMatches st.completions g.slots with
      | m :: _ =>
        (setCurrent (markComplete (releasePhase fuel st gid).1 m gid) gid (some m),
         (releasePhase fuel st gid).2 ++
           [if completionCount (releasePhase fuel st gid).1 m == 0 then Signal.onMatch gid
            else Signal.onDuplicate gid])
      | [] =>
        ((releasePhase fuel st gid).1, (releasePhase fuel st gid).2 ++ [Signal.onNoMatch gid]) := by
  rw [validate, hg]
  have hcur : currentOf st gid = g.currentCompletion := by
    rw [currentOf, hg]
  cases hc : g.currentCompletion with
  | none =>
    simp only [releasePhase, hcur, hc]
  | some c =>
    simp only [releasePhase, hcur, hc]

/-! ### Unfolding and frame lemmas for `markIncomplete` / `validate` -/

theorem validate_invalid (fuel : Nat) (st : SysState) (gid : Nat)
    (h : st.groups.get? gid = none) : validate fuel st gid = (st, []) := by
  rw [validate, h]

theorem releasePhase_none (fuel : Nat) (st : SysState) (gid : Nat)
    (h : currentOf st gid = none) : releasePhase fuel st gid = (st, []) := by
  rw [releasePhase, h]

theorem releasePhase_some (fuel : Nat) (st : SysState) (gid : Nat) (c : List String)
    (h : currentOf st gid = some c) :
    releasePhase fuel st gid =
      (setCurrent (markIncomplete fuel st c gid).1 gid none, (markIncomplete fuel st c gid).2) := by
  rw [releasePhase, h]

theorem markIncomplete_none (fuel : Nat) (st : SysState) (c : List String) (g : Nat)
    (h : lookupKey st.complete (completionKey c) = none) :
    markIncomplete fuel st c g = (st, []) := by
  rw [markIncomplete, h]

theorem markIncomplete_not_claimant (fuel : Nat) (st : SysState) (c : List String) (g : Nat)
    (L : List Nat) (hl : lookupKey st.complete (completionKey c) = some L) (h : g ∉ L) :
    markIncomplete fuel st c g = (st, []) := by
  have hc : L.contains g = false := by
    cases hcv : L.contains g with
    | false => rfl
    | true => exact absurd ((contains_iff_mem L g).mp hcv) h
  rw [markIncomplete, hl]
  simp only [hc, Bool.false_eq_true, if_false]

theorem markIncomplete_mem (fuel : Nat) (st : SysState) (c : List String) (g : Nat)
    (L : List Nat) (hl : lookupKey st.complete (completionKey c) = some L) (hg : g ∈ L) :
    markIncomplete fuel st c g =
      if (L.erase g).length = 1 then
        match fuel with
        | f + 1 =>
          validate f { st with complete := setKey st.complete (completionKey c) (L.erase g) }
            ((L.erase g).headD 0)
        | 0 => ({ st with complete := setKey st.complete (completionKey c) (L.erase g) }, [])
      else ({ st with complete := setKey st.complete (completionKey c) (L.erase g) }, []) := by
  have hc : L.contains g = true := (contains_iff_mem L g).mpr hg
  rw [markIncomplete, hl]
  simp only [hc, if_true]

theorem sameFrame_refl (st : SysState) : sameFrame st st :=
  ⟨rfl, rfl, fun _ => rfl⟩

theorem sameFrame_trans {a b c : SysState} (h1 : sameFrame a b) (h2 : sameFrame b c) :
    sameFrame a c :=
  ⟨h2.1.trans h1.1, h2.2.1.trans h1.2.1, fun i => (h2.2.2 i).trans (h1.2.2 i)⟩

theorem sameFrame_setCurrent (st : SysState) (gid : Nat) (v : Option (List String)) :
    sameFrame st (setCurrent st gid v) :=
  ⟨rfl, by simp, fun i => slotsOf_setCurrent st gid i v⟩

theorem sameFrame_setComplete (st : SysState) (x : List (String × List Nat)) :
    sameFrame st { st with complete := x } :=
  ⟨rfl, rfl, fun _ => rfl⟩

theorem sameFrame_markComplete (st : SysState) (c : List String) (g : Nat) :
    sameFrame st (markComplete st c g) := by
  refine ⟨markComplete_completions st c g, by rw [markComplete_groups], fun i => ?_⟩
  rw [slotsOf, slotsOf, markComplete_groups]

theorem sameFrame_validate_step (fuel : Nat)
    (hm : ∀ st c g, sameFrame st (markIncomplete fuel st c g).1) :
    ∀ st gid, sameFrame st (validate fuel st gid).1 := by
  intro st gid
  cases hg : st.groups.get? gid with
  | none => rw [validate_invalid fuel st gid hg]; exact sameFrame_refl st
  | some g =>
    have hrel : sameFrame st (releasePhase fuel st gid).1 := by
      cases hcur : currentOf st gid with
      | none => rw [releasePhase_none fuel st gid hcur]; exact sameFrame_refl st
      | some c =>
        rw [releasePhase_some fuel st gid c hcur]
        exact sameFrame_trans (hm st c gid) (sameFrame_setCurrent _ gid none)
    rw [validate_eq fuel st gid g hg]
    cases computeMatches st.completions g.slots with
    | nil => exact hrel
    | cons m ms =>
      exact sameFrame_trans
        (sameFrame_trans hrel (sameFrame_markComplete _ m gid))
        (sameFrame_setCurrent _ gid (some m))

theorem frame_all : ∀ fuel : Nat,
    (∀ st c g, sameFrame st (markIncomplete fuel st c g).1) ∧
    (∀ st gid, sameFrame st (validate fuel st gid).1) := by
  intro fuel
  induction fuel with
  | zero =>
    have hm : ∀ st c g, sameFrame st (markIncomplete 0 st c g).1 := by
      intro st c g
      cases hl : lookupKey st.complete (completionKey c) with
      | none => rw [markIncomplete_none 0 st c g hl]; exact sameFrame_refl st
      | some L =>
        by_cases hg : g ∈ L
        · rw [markIncomplete_mem 0 st c g L hl hg]
          by_cases hlen : (L.erase g).length = 1
          · simp only [if_pos hlen]; exact sameFrame_setComplete st _
          · simp only [if_neg hlen]; exact sameFrame_setComplete st _
        · rw [markIncomplete_not_claimant 0 st c g L hl hg]; exact sameFrame_refl st
    exact ⟨hm, sameFrame_validate_step 0 hm⟩
  | succ f ih =>
    have hm : ∀ st c g, sameFrame st (markIncomplete (f + 1) st c g).1 := by
      intro st c g
      cases hl : lookupKey st.complete (completionKey c) with
      | none => rw [markIncomplete_none (f + 1) st c g hl]; exact sameFrame_refl st
      | some L =>
        by_cases hg : g ∈ L
        · rw [markIncomplete_mem (f + 1) st c g L hl hg]
          by_cases hlen : (L.erase g).length = 1
          · simp only [if_pos hlen]
            exact sameFrame_trans (sameFrame_setComplete st _) (ih.2 _ _)
          · simp only [if_neg hlen]; exact sameFrame_setComplete st _
        · rw [markIncomplete_not_claimant (f + 1) st c g L hl hg]; exact sameFrame_refl st
    exact ⟨hm, sameFrame_validate_step (f + 1) hm⟩

theorem sameFrame_markIncomplete (fuel : Nat) (st : SysState) (c : List String) (g : Nat) :
    sameFrame st (markIncomplete fuel st c g).1 :=
  (frame_all fuel).1 st c g

theorem sameFrame_validate (fuel : Nat) (st : SysState) (gid : Nat) :
    sameFrame st (validate fuel st gid).1 :=
  (frame_all fuel).2 st gid

theorem sameFrame_releasePhase (fuel : Nat) (st : SysState) (gid : Nat) :
    sameFrame st (releasePhase fuel st gid).1 := by
  cases hcur : currentOf st gid with
  | none => rw [releasePhase_none fuel st gid hcur]; exact sameFrame_refl st
  | some c =>
    rw [releasePhase_some fuel st gid c hcur]
    exact sameFrame_trans (sameFrame_markIncomplete fuel st c gid) (sameFrame_setCurrent _ gid none)

/-! ### Extracting facts from the invariants -/

theorem get?_of_lt (l : List α) (n : Nat) (h : n < l.length) : ∃ x, l.get? n = some x := by
  cases hx : l.get? n with
  | none => rw [List.get?_eq_none] at hx; omega
  | some x => exact ⟨x, rfl⟩

theorem currentOf_some_lt (st : SysState) (gid : Nat) (c : List String)
    (h : currentOf st gid = some c) : gid < st.groups.length := by
  by_contra hlt
  have hnone : st.groups.get? gid = none := List.get?_eq_none.mpr (by omega)
  rw [currentOf, hnone] at h
  exact absurd h (by simp)

theorem wf_mem_claimants (st : SysState) (k : String) (g : Nat)
    (hwf : wfB st = true) (h : g ∈ claimantsOf st k) :
    g < st.groups.length ∧ (claimantsOf st k).count g = 1 ∧ keyOfCurrent st g = some k := by
  have hl := claimantsOf_lookup st k g h
  have hmem := lookupKey_mem _ _ _ hl
  rw [wfB, Bool.and_eq_true] at hwf
  have h1 := hwf.1
  rw [List.all_eq_true] at h1
  have h2 := h1 (k, claimantsOf st k) hmem
  rw [List.all_eq_true] at h2
  have h3 := h2 g h
  rw [Bool.and_eq_true, Bool.and_eq_true] at h3
  obtain ⟨⟨ha, hb⟩, hc⟩ := h3
  refine ⟨by simpa using ha, by simpa using hb, by simpa using hc⟩

theorem wf_current_claimed (st : SysState) (gid : Nat) (c : List String)
    (hwf : wfB st = true) (hc : currentOf st gid = some c) :
    gid ∈ claimantsOf st (completionKey c) := by
  have hg := currentOf_some_lt st gid c hc
  rw [wfB, Bool.and_eq_true] at hwf
  have h2 := hwf.2
  rw [List.all_eq_true] at h2
  have h3 := h2 gid (List.mem_range.mpr hg)
  simp only [hc] at h3
  exact (contains_iff_mem _ _).mp h3

theorem arity_spec (st : SysState) (hb : arityB st = true) (gid : Nat) (c : List String)
    (hg : gid < st.groups.length) (hc : c ∈ st.completions) :
    c.length = (slotsOf st gid).length := by
  obtain ⟨g, hgg⟩ := get?_of_lt st.groups gid hg
  rw [arityB, List.all_eq_true] at hb
  have h1 := hb g (List.get?_mem hgg)
  rw [List.all_eq_true] at h1
  have h2 := h1 c hc
  rw [slotsOf, hgg]
  simpa using h2

theorem currentOk_spec (st : SysState) (hb : currentOkB st = true) (gid : Nat) (c : List String)
    (hc : currentOf st gid = some c) :
    c ∈ st.completions ∧ matchesFrom (slotsOf st gid) 0 c = true := by
  have hg := currentOf_some_lt st gid c hc
  obtain ⟨g, hgg⟩ := get?_of_lt st.groups gid hg
  rw [currentOf, hgg] at hc
  have hc2 : g.currentCompletion = some c := hc
  rw [currentOkB, List.all_eq_true] at hb
  have h1 := hb g (List.get?_mem hgg)
  rw [hc2] at h1
  have h2 : (st.completions.contains c && matchesFrom g.slots 0 c) = true := h1
  rw [Bool.and_eq_true] at h2
  rw [slotsOf, hgg]
  exact ⟨(contains_iff_mem _ _).mp h2.1, h2.2⟩

theorem validate_currentOf (fuel : Nat) (st : SysState) (gid : Nat)
    (hg : gid < st.groups.length) :
    currentOf (validate fuel st gid).1 gid =
      (computeMatches st.completions (slotsOf st gid)).head? := by
  obtain ⟨g, hgg⟩ := get?_of_lt st.groups gid hg
  have hslots : slotsOf st gid = g.slots := by rw [slotsOf, hgg]
  rw [validate_eq fuel st gid g hgg, hslots]
  cases hm : computeMatches st.completions g.slots with
  | nil =>
    cases hcur : currentOf st gid with
    | none => rw [releasePhase_none _ _ _ hcur]; exact hcur
    | some c =>
      rw [releasePhase_some _ _ _ c hcur]
      have hlen : (markIncomplete fuel st c gid).1.groups.length = st.groups.length :=
        (sameFrame_markIncomplete fuel st c gid).2.1
      rw [currentOf_setCurrent_self _ _ _ (by omega)]
      rfl
  | cons m ms =>
    have hlen : (markComplete (releasePhase fuel st gid).1 m gid).groups.length
        = st.groups.length := by
      rw [markComplete_groups]
      exact (sameFrame_releasePhase fuel st gid).2.1
    rw [currentOf_setCurrent_self _ _ _ (by omega)]
    rfl

/-! ### The reentrant revalidation of a sole remaining claimant -/

theorem sysState_ext (a b : SysState) (h1 : a.completions = b.completions)
    (h2 : a.complete = b.complete) (h3 : a.groups = b.groups) : a = b := by
  cases a; cases b; simp_all

theorem nested_id (fuel : Nat) (st : SysState) (h0 : Nat) (ch : List String)
    (hcur : currentOf st h0 = some ch)
    (hmem : ch ∈ st.completions)
    (hmf : matchesFrom (slotsOf st h0) 0 ch = true)
    (harity : ∀ c' ∈ st.completions, c'.length = (slotsOf st h0).length)
    (hclaim : claimantsOf st (completionKey ch) = [h0]) :
    validate fuel st h0 = (st, [Signal.onMatch h0]) := by
  have hlt := currentOf_some_lt st h0 ch hcur
  obtain ⟨gh, hgh⟩ := get?_of_lt st.groups h0 hlt
  have hslots : slotsOf st h0 = gh.slots := by rw [slotsOf, hgh]
  have hchM : ch ∈ computeMatches st.completions gh.slots := by
    rw [mem_computeMatches]
    exact ⟨hmem, hslots ▸ hmf⟩
  have hallM : ∀ m ∈ computeMatches st.completions gh.slots, m = ch := by
    intro m hm
    rw [mem_computeMatches] at hm
    exact matchesSlots_unique gh.slots m ch
      (matchesSlots_of_matchesFrom _ _ hm.2)
      (matchesSlots_of_matchesFrom _ _ (hslots ▸ hmf))
      (hslots ▸ harity m hm.1) (hslots ▸ harity ch hmem)
  have hlk : lookupKey st.complete (completionKey ch) = some [h0] := by
    have h1 := claimantsOf_lookup st (completionKey ch) h0
      (by rw [hclaim]; exact List.mem_singleton.mpr rfl)
    rw [hclaim] at h1
    exact h1
  cases hM : computeMatches st.completions gh.slots with
  | nil => rw [hM] at hchM; simp at hchM
  | cons m rest =>
    have hmch : m = ch := hallM m (by rw [hM]; exact List.mem_cons_self m rest)
    subst hmch
    rw [validate_eq fuel st h0 gh hgh, hM,
      releasePhase_some fuel st h0 m hcur,
      markIncomplete_mem fuel st m h0 [h0] hlk (List.mem_singleton.mpr rfl)]
    have herase : ([h0] : List Nat).erase h0 = [] := by simp
    rw [herase]
    simp only [List.length_nil, if_neg (by omega : ¬(0 : Nat) = 1)]
    have hclZ : claimantsOf
        (setCurrent { st with complete := setKey st.complete (completionKey m) [] } h0 none)
        (completionKey m) = [] := by
      show (lookupKey (setKey st.complete (completionKey m) []) (completionKey m)).getD [] = []
      rw [lookupKey_setKey_self]
      rfl
    have hcount : completionCount
        (setCurrent { st with complete := setKey st.complete (completionKey m) [] } h0 none) m
        = 0 := by
      rw [completionCount_eq_length, hclZ]
      rfl
    rw [hcount]
    have hZc : (setCurrent { st with complete := setKey st.complete (completionKey m) [] }
        h0 none).complete = setKey st.complete (completionKey m) [] := rfl
    have hstate :
        setCurrent
          (markComplete
            (setCurrent { st with complete := setKey st.complete (completionKey m) [] } h0 none)
            m h0)
          h0 (some m) = st := by
      apply sysState_ext
      · simp [setCurrent, markComplete_completions]
      · rw [setCurrent_complete, markComplete_complete, hclZ, hZc]
        simp only [List.nil_append]
        rw [setKey_setKey]
        exact setKey_lookup_self st.complete (completionKey m) [h0] hlk
      · have hgrps :
            (markComplete
              (setCurrent { st with complete := setKey st.complete (completionKey m) [] } h0 none)
              m h0).groups
            = listModify (fun g => { g with currentCompletion := none }) h0 st.groups := by
          rw [markComplete_groups]
          rfl
        show listModify (fun g => { g with currentCompletion := some m }) h0
          (markComplete
            (setCurrent { st with complete := setKey st.complete (completionKey m) [] } h0 none)
            m h0).groups = st.groups
        rw [hgrps, listModify_listModify]
        have h2 : setCurrent st h0 (some m) = st := setCurrent_currentOf_self st h0 (some m) hcur
        exact congrArg SysState.groups h2
    rw [hstate]
    simp

/-! ### Signal structure of a revalidation -/

theorem validate_sigs (fuel : Nat) (st : SysState) (gid : Nat) (g : GroupState)
    (hg : st.groups.get? gid = some g) :
    ∃ ow, (validate fuel st gid).2 = (releasePhase fuel st gid).2 ++ [ow] ∧ sigGroup ow = gid ∧
      (ow = Signal.onMatch gid ∨ ow = Signal.onDuplicate gid ∨ ow = Signal.onNoMatch gid) := by
  rw [validate_eq fuel st gid g hg]
  cases computeMatches st.completions g.slots with
  | nil => exact ⟨Signal.onNoMatch gid, rfl, rfl, Or.inr (Or.inr rfl)⟩
  | cons m ms =>
    refine ⟨_, rfl, ?_, ?_⟩
    · cases hc : (completionCount (releasePhase fuel st gid).1 m == 0) <;> simp [hc, sigGroup]
    · cases hc : (completionCount (releasePhase fuel st gid).1 m == 0) <;> simp [hc]

@[simp] theorem removeClaim_groups (st : SysState) (k : String) (g : Nat) :
    (removeClaim st k g).groups = st.groups := rfl

@[simp] theorem removeClaim_completions (st : SysState) (k : String) (g : Nat) :
    (removeClaim st k g).completions = st.completions := rfl

@[simp] theorem currentOf_removeClaim (st : SysState) (k : String) (g i : Nat) :
    currentOf (removeClaim st k g) i = currentOf st i := rfl

@[simp] theorem slotsOf_removeClaim (st : SysState) (k : String) (g i : Nat) :
    slotsOf (removeClaim st k g) i = slotsOf st i := rfl

theorem claimantsOf_removeClaim_self (st : SysState) (k : String) (g : Nat) :
    claimantsOf (removeClaim st k g) k = (claimantsOf st k).erase g := by
  show (lookupKey (setKey st.complete k ((claimantsOf st k).erase g)) k).getD []
    = (claimantsOf st k).erase g
  rw [lookupKey_setKey_self]
  rfl

theorem claimantsOf_removeClaim_ne (st : SysState) (k k' : String) (g : Nat) (h : k' ≠ k) :
    claimantsOf (removeClaim st k g) k' = claimantsOf st k' := by
  show (lookupKey (setKey st.complete k ((claimantsOf st k).erase g)) k').getD []
    = claimantsOf st k'
  rw [lookupKey_setKey_ne _ _ _ _ h]
  rfl

theorem markIncomplete_claims (fuel : Nat) (st : SysState) (c : List String) (g : Nat)
    (hmem : g ∈ claimantsOf st (completionKey c)) :
    markIncomplete fuel st c g =
      if ((claimantsOf st (completionKey c)).erase g).length = 1 then
        match fuel with
        | f + 1 =>
          validate f (removeClaim st (completionKey c) g)
            (((claimantsOf st (completionKey c)).erase g).headD 0)
        | 0 => (removeClaim st (completionKey c) g, [])
      else (removeClaim st (completionKey c) g, []) := by
  have hl := claimantsOf_lookup st (completionKey c) g hmem
  rw [markIncomplete_mem fuel st c g _ hl hmem]
  rfl

/-- The facts the claim-table invariant yields about the sole remaining
claimant after a release that leaves exactly one. -/
theorem remaining_claimant_facts (st : SysState) (k : String) (gid h0 : Nat)
    (hwf : wfB st = true) (hgid : gid ∈ claimantsOf st k)
    (hrem : (claimantsOf st k).erase gid = [h0]) :
    h0 ≠ gid ∧ h0 < st.groups.length ∧
      ∃ ch, currentOf st h0 = some ch ∧ completionKey ch = k := by
  obtain ⟨-, hcount, -⟩ := wf_mem_claimants st k gid hwf hgid
  have hnotmem : gid ∉ (claimantsOf st k).erase gid := by
    have hcz := List.count_erase_self gid (claimantsOf st k)
    rw [hcount] at hcz
    exact List.count_eq_zero.mp (by omega)
  have hne : h0 ≠ gid := by
    intro he
    apply hnotmem
    rw [hrem, he]
    exact List.mem_singleton.mpr rfl
  have hmemL : h0 ∈ claimantsOf st k :=
    List.mem_of_mem_erase (by rw [hrem]; exact List.mem_singleton.mpr rfl)
  obtain ⟨hlt0, -, hkey0⟩ := wf_mem_claimants st k h0 hwf hmemL
  refine ⟨hne, hlt0, ?_⟩
  rw [keyOfCurrent] at hkey0
  cases hc2 : currentOf st h0 with
  | none => rw [hc2] at hkey0; simp at hkey0
  | some ch => rw [hc2] at hkey0; exact ⟨ch, rfl, by simpa using hkey0⟩

/-- After the splice leaves the sole claimant `h0`, its own reentrant release
finds only itself and so cannot trigger deeper revalidation: its release phase
emits nothing. -/
theorem sole_claimant_release (fuel : Nat) (st : SysState) (k : String) (gid h0 : Nat)
    (ch : List String) (hch : currentOf st h0 = some ch) (hchk : completionKey ch = k)
    (hrem : (claimantsOf st k).erase gid = [h0]) :
    releasePhase fuel (removeClaim st k gid) h0 =
      (setCurrent (removeClaim (removeClaim st k gid) k h0) h0 none, []) := by
  have hch' : currentOf (removeClaim st k gid) h0 = some ch := hch
  rw [releasePhase_some fuel _ h0 ch hch']
  have hcl : claimantsOf (removeClaim st k gid) (completionKey ch) = [h0] := by
    rw [hchk, claimantsOf_removeClaim_self, hrem]
  have hmem0 : h0 ∈ claimantsOf (removeClaim st k gid) (completionKey ch) := by
    rw [hcl]
    exact List.mem_singleton.mpr rfl
  rw [markIncomplete_claims fuel _ ch h0 hmem0, hcl]
  have herase : ([h0] : List Nat).erase h0 = [] := by simp
  rw [herase]
  simp only [List.length_nil, if_neg (by omega : ¬(0 : Nat) = 1)]
  have hrc : removeClaim (removeClaim st k gid) (completionKey ch) h0
      = removeClaim (removeClaim st k gid) k h0 := by
    rw [hchk]
  rw [hrc]

theorem releasePhase_sigGroup_ne (fuel : Nat) (st : SysState) (gid : Nat)
    (hwf : wfB st = true) :
    ∀ s ∈ (releasePhase fuel st gid).2, sigGroup s ≠ gid := by
  cases hcur : currentOf st gid with
  | none =>
    rw [releasePhase_none fuel st gid hcur]
    intro s hs
    exact absurd hs (List.not_mem_nil s)
  | some c =>
    rw [releasePhase_some fuel st gid c hcur]
    have hclaim := wf_current_claimed st gid c hwf hcur
    rw [markIncomplete_claims fuel st c gid hclaim]
    by_cases hlen : ((claimantsOf st (completionKey c)).erase gid).length = 1
    · simp only [if_pos hlen]
      cases fuel with
      | zero =>
        intro s hs
        exact absurd hs (List.not_mem_nil s)
      | succ f =>
        obtain ⟨h0, hrem⟩ := List.length_eq_one.mp hlen
        obtain ⟨hne, hlt0, ch, hch, hchk⟩ :=
          remaining_claimant_facts st (completionKey c) gid h0 hwf hclaim hrem
        have hh0 : ((claimantsOf st (completionKey c)).erase gid).headD 0 = h0 := by
          rw [hrem]
          rfl
        rw [hh0]
        obtain ⟨gh, hgh⟩ := get?_of_lt st.groups h0 hlt0
        have hgh' : (removeClaim st (completionKey c) gid).groups.get? h0 = some gh := hgh
        obtain ⟨ow, hsig, howg, -⟩ := validate_sigs f _ h0 gh hgh'
        rw [hsig, sole_claimant_release f st (completionKey c) gid h0 ch hch hchk hrem]
        intro s hs
        simp only [List.nil_append, List.mem_singleton] at hs
        rw [hs, howg]
        exact hne
    · simp only [if_neg hlen]
      intro s hs
      exact absurd hs (List.not_mem_nil s)

theorem sigsFor_append_own (gid : Nat) (rel : List Signal) (ow : Signal)
    (hrel : ∀ s ∈ rel, sigGroup s ≠ gid) (how : sigGroup ow = gid) :
    sigsFor gid (rel ++ [ow]) = [ow] := by
  rw [sigsFor, List.filter_append]
  have h1 : rel.filter (fun s => sigGroup s == gid) = [] :=
    List.filter_eq_nil_iff.mpr (fun s hs => by simp [hrel s hs])
  rw [h1]
  simp [how]

/-! ### The claims -/

/-- C1: when the filtered completion set is non-empty, `_validate` registers
the group's claim on the chosen completion and delivers exactly one signal to
the group: `onMatch` when the completion had zero claimants at registration
time (in the state left by releasing the group's previous claim), and
`onDuplicate` when it had more than zero. -/
theorem c1_register_and_signal (fuel : Nat) (st : SysState) (gid : Nat)
    (m : List String) (ms : List (List String))
    (hwf : wfB st = true) (hg : gid < st.groups.length)
    (hM : computeMatches st.completions (slotsOf st gid) = m :: ms) :
    gid ∈ claimantsOf (validate (fuel + 1) st gid).1 (completionKey m) ∧
    sigsFor gid (validate (fuel + 1) st gid).2 =
      [if completionCount (releasePhase (fuel + 1) st gid).1 m = 0
       then Signal.onMatch gid else Signal.onDuplicate gid] := by
  obtain ⟨g, hgg⟩ := get?_of_lt st.groups gid hg
  have hslots : slotsOf st gid = g.slots := by rw [slotsOf, hgg]
  have hM' : computeMatches st.completions g.slots = m :: ms := hslots ▸ hM
  rw [validate_eq (fuel + 1) st gid g hgg, hM']
  constructor
  · show gid ∈ claimantsOf
      (setCurrent (markComplete (releasePhase (fuel + 1) st gid).1 m gid) gid (some m))
      (completionKey m)
    rw [claimantsOf_setCurrent]
    have hcl : claimantsOf (markComplete (releasePhase (fuel + 1) st gid).1 m gid)
        (completionKey m)
        = claimantsOf (releasePhase (fuel + 1) st gid).1 (completionKey m) ++ [gid] := by
      rw [claimantsOf, markComplete_complete, lookupKey_setKey_self]
      rfl
    rw [hcl]
    exact List.mem_append_right _ (List.mem_singleton.mpr rfl)
  · have hrel := releasePhase_sigGroup_ne (fuel + 1) st gid hwf
    have hsf := sigsFor_append_own gid (releasePhase (fuel + 1) st gid).2
      (if completionCount (releasePhase (fuel + 1) st gid).1 m == 0 then Signal.onMatch gid
       else Signal.onDuplicate gid) hrel
      (by cases hc : (completionCount (releasePhase (fuel + 1) st gid).1 m == 0) <;>
        simp [hc, sigGroup])
    rw [hsf]
    cases hc : completionCount (releasePhase (fuel + 1) st gid).1 m <;> simp

/-- C8: every single invocation of `_validate` delivers to the validated group
exactly one of the three signals, synchronously within the call (the returned
signal list is the sequence of callbacks run inside the call). -/
theorem c8_exactly_one_signal (fuel : Nat) (st : SysState) (gid : Nat)
    (hwf : wfB st = true) (hg : gid < st.groups.length) :
    ∃ ow, sigsFor gid (validate (fuel + 1) st gid).2 = [ow] ∧
      (ow = Signal.onMatch gid ∨ ow = Signal.onDuplicate gid ∨ ow = Signal.onNoMatch gid) := by
  obtain ⟨g, hgg⟩ := get?_of_lt st.groups gid hg
  obtain ⟨ow, hsig, howg, hshape⟩ := validate_sigs (fuel + 1) st gid g hgg
  refine ⟨ow, ?_, hshape⟩
  rw [hsig]
  exact sigsFor_append_own gid _ ow (releasePhase_sigGroup_ne (fuel + 1) st gid hwf) howg

/-- C4: if any slot reads as empty, the match set is empty regardless of the
other slots, the group's matched completion becomes null, and the no-match
signal is emitted. -/
theorem c4_empty_slot_no_match (fuel : Nat) (st : SysState) (gid : Nat)
    (hg : gid < st.groups.length) (hempty : none ∈ slotsOf st gid) :
    computeMatches st.completions (slotsOf st gid) = [] ∧
    currentOf (validate fuel st gid).1 gid = none ∧
    Signal.onNoMatch gid ∈ (validate fuel st gid).2 := by
  have hM : computeMatches st.completions (slotsOf st gid) = [] :=
    computeMatches_nil_of_none_mem _ _ hempty
  refine ⟨hM, ?_, ?_⟩
  · rw [validate_currentOf fuel st gid hg, hM]
    rfl
  · obtain ⟨g, hgg⟩ := get?_of_lt st.groups gid hg
    have hslots : slotsOf st gid = g.slots := by rw [slotsOf, hgg]
    have hM' : computeMatches st.completions g.slots = [] := hslots ▸ hM
    rw [validate_eq fuel st gid g hgg, hM']
    exact List.mem_append_right _ (List.mem_singleton.mpr rfl)

/-- C7: releasing a claim whose key is absent, or whose claimant list does not
contain the given group, leaves the state unchanged and emits no signal. -/
theorem c7_release_missing_noop (fuel : Nat) (st : SysState) (c : List String) (g : Nat)
    (h : ∀ L, lookupKey st.complete (completionKey c) = some L → g ∉ L) :
    markIncomplete fuel st c g = (st, []) := by
  cases hl : lookupKey st.complete (completionKey c) with
  | none => exact markIncomplete_none fuel st c g hl
  | some L => exact markIncomplete_not_claimant fuel st c g L hl (h L hl)

/-- C9: two completions with equal concatenations are the same completion to
the `CompletionSet`: `markComplete`, `markIncomplete` and `completionCount`
cannot tell them apart in any state, because the key drops the boundaries. -/
theorem c9_key_collision (fuel : Nat) (st : SysState) (g : Nat) (c1 c2 : List String)
    (hne : c1 ≠ c2) (hk : completionKey c1 = completionKey c2) :
    markComplete st c1 g = markComplete st c2 g ∧
    markIncomplete fuel st c1 g = markIncomplete fuel st c2 g ∧
    completionCount st c1 = completionCount st c2 := by
  refine ⟨?_, ?_, ?_⟩
  · rw [markComplete, markComplete, hk]
  · rw [markIncomplete, markIncomplete, hk]
  · rw [completionCount, completionCount, hk]

/-- C3: with every slot holding non-empty text, the match set is exactly the
completions whose value at each position equals the slot's text (in completion
list order), the new matched completion is the first such element, and
no-match is signalled when none survives. -/
theorem c3_filter_and_first (fuel : Nat) (st : SysState) (gid : Nat)
    (hg : gid < st.groups.length)
    (hs : ∀ t ∈ slotsOf st gid, t ≠ none ∧ t ≠ some "") :
    computeMatches st.completions (slotsOf st gid)
        = st.completions.filter (fun c => decide (matchesSlots (slotsOf st gid) c)) ∧
    currentOf (validate fuel st gid).1 gid
        = st.completions.find? (fun c => decide (matchesSlots (slotsOf st gid) c)) ∧
    (st.completions.find? (fun c => decide (matchesSlots (slotsOf st gid) c)) = none →
        Signal.onNoMatch gid ∈ (validate fuel st gid).2) := by
  have hpt : ∀ c, matchesFrom (slotsOf st gid) 0 c = decide (matchesSlots (slotsOf st gid) c) := by
    intro c
    have hiff := matchesFrom_iff_matchesSlots (slotsOf st gid) c hs
    cases hmf : matchesFrom (slotsOf st gid) 0 c with
    | false =>
      have hnot : ¬ matchesSlots (slotsOf st gid) c := by
        intro hm
        rw [hiff.mpr hm] at hmf
        cases hmf
      simp [hnot]
    | true =>
      simp [hiff.mp hmf]
  have h1 : computeMatches st.completions (slotsOf st gid)
      = st.completions.filter (fun c => decide (matchesSlots (slotsOf st gid) c)) := by
    rw [computeMatches_eq_filter]
    exact List.filter_congr (fun c _ => hpt c)
  refine ⟨h1, ?_, ?_⟩
  · rw [validate_currentOf fuel st gid hg, h1, filter_head?_eq_find?]
  · intro hfind
    have hM : computeMatches st.completions (slotsOf st gid) = [] := by
      have hh : (computeMatches st.completions (slotsOf st gid)).head? = none := by
        rw [h1, filter_head?_eq_find?, hfind]
      cases hMv : computeMatches st.completions (slotsOf st gid) with
      | nil => rfl
      | cons m ms => rw [hMv] at hh; cases hh
    obtain ⟨g, hgg⟩ := get?_of_lt st.groups gid hg
    have hslots : slotsOf st gid = g.slots := by rw [slotsOf, hgg]
    have hM' : computeMatches st.completions g.slots = [] := hslots ▸ hM
    rw [validate_eq fuel st gid g hgg, hM']
    exact List.mem_append_right _ (List.mem_singleton.mpr rfl)

/-- C5: after a revalidation, the group's matched completion, when non-null,
is the unique completion of the set whose per-position values equal the
group's per-slot texts in order; when no completion matches every position,
the matched completion is null. -/
theorem c5_matched_invariant (fuel : Nat) (st : SysState) (gid : Nat)
    (hg : gid < st.groups.length)
    (harity : ∀ c' ∈ st.completions, c'.length = (slotsOf st gid).length) :
    (∀ c, currentOf (validate fuel st gid).1 gid = some c →
        c ∈ st.completions ∧ matchesSlots (slotsOf (validate fuel st gid).1 gid) c ∧
        ∀ c' ∈ st.completions, matchesSlots (slotsOf (validate fuel st gid).1 gid) c' → c' = c) ∧
    ((∀ c' ∈ st.completions, ¬ matchesSlots (slotsOf (validate fuel st gid).1 gid) c') →
        currentOf (validate fuel st gid).1 gid = none) := by
  have hsl : slotsOf (validate fuel st gid).1 gid = slotsOf st gid :=
    (sameFrame_validate fuel st gid).2.2 gid
  rw [hsl]
  have hcur := validate_currentOf fuel st gid hg
  constructor
  · intro c hc
    rw [hcur] at hc
    have hmem : c ∈ computeMatches st.completions (slotsOf st gid) := by
      cases hMv : computeMatches st.completions (slotsOf st gid) with
      | nil => rw [hMv] at hc; cases hc
      | cons m ms =>
        rw [hMv] at hc
        have hmc : m = c := by simpa using hc
        exact hmc ▸ List.mem_cons_self m ms
    rw [mem_computeMatches] at hmem
    have hms : matchesSlots (slotsOf st gid) c := matchesSlots_of_matchesFrom _ _ hmem.2
    refine ⟨hmem.1, hms, fun c' hc' hms' => ?_⟩
    exact matchesSlots_unique (slotsOf st gid) c' c hms' hms (harity c' hc') (harity c hmem.1)
  · intro hnone
    rw [hcur]
    cases hMv : computeMatches st.completions (slotsOf st gid) with
    | nil => rfl
    | cons m ms =>
      exfalso
      have hmem : m ∈ computeMatches st.completions (slotsOf st gid) := by
        rw [hMv]
        exact List.mem_cons_self m ms
      rw [mem_computeMatches] at hmem
      exact hnone m hmem.1 (matchesSlots_of_matchesFrom _ _ hmem.2)

@[simp] theorem slotsOf_markComplete (st : SysState) (c : List String) (g i : Nat) :
    slotsOf (markComplete st c g) i = slotsOf st i := by
  simp only [slotsOf, markComplete_groups]

@[simp] theorem currentOf_markComplete (st : SysState) (c : List String) (g i : Nat) :
    currentOf (markComplete st c g) i = currentOf st i := by
  simp only [currentOf, markComplete_groups]

/-- C2: when a completion has exactly the two claimants `g1` and `h0`,
releasing `g1`'s claim revalidates `h0` inside the same `markIncomplete` call;
since `h0`'s slot texts are unchanged (they still select a completion with the
same key first), `h0` re-signals unique-match and ends as sole claimant. -/
theorem c2_release_retriggers_unique (fuel : Nat) (st : SysState) (c : List String)
    (g1 h0 : Nat) (c' : List String) (rest : List (List String))
    (hwf : wfB st = true)
    (hne : h0 ≠ g1)
    (hcl : claimantsOf st (completionKey c) = [g1, h0] ∨
           claimantsOf st (completionKey c) = [h0, g1])
    (hM : computeMatches st.completions (slotsOf st h0) = c' :: rest)
    (hkey : completionKey c' = completionKey c) :
    (markIncomplete (fuel + 1) st c g1).2 = [Signal.onMatch h0] ∧
    currentOf (markIncomplete (fuel + 1) st c g1).1 h0 = some c' ∧
    claimantsOf (markIncomplete (fuel + 1) st c g1).1 (completionKey c) = [h0] ∧
    slotsOf (markIncomplete (fuel + 1) st c g1).1 h0 = slotsOf st h0 := by
  have hg1mem : g1 ∈ claimantsOf st (completionKey c) := by
    rcases hcl with h | h <;> rw [h] <;> simp
  have herase : (claimantsOf st (completionKey c)).erase g1 = [h0] := by
    rcases hcl with h | h <;> rw [h] <;> simp [List.erase_cons, hne]
  have hstep : markIncomplete (fuel + 1) st c g1
      = validate fuel (removeClaim st (completionKey c) g1) h0 := by
    rw [markIncomplete_claims (fuel + 1) st c g1 hg1mem, herase]
    rw [if_pos (show ([h0] : List Nat).length = 1 from rfl)]
    rfl
  obtain ⟨-, hlt0, ch, hch, hchk⟩ :=
    remaining_claimant_facts st (completionKey c) g1 h0 hwf hg1mem herase
  obtain ⟨gh, hgh⟩ := get?_of_lt st.groups h0 hlt0
  have hgh' : (removeClaim st (completionKey c) g1).groups.get? h0 = some gh := hgh
  have hslots : slotsOf st h0 = gh.slots := by rw [slotsOf, hgh]
  have hMr : computeMatches (removeClaim st (completionKey c) g1).completions gh.slots
      = c' :: rest := by
    rw [removeClaim_completions]
    exact hslots ▸ hM
  have hcnt : completionCount
      (setCurrent (removeClaim (removeClaim st (completionKey c) g1) (completionKey c) h0)
        h0 none) c' = 0 := by
    rw [completionCount_eq_length, hkey, claimantsOf_setCurrent,
      claimantsOf_removeClaim_self, claimantsOf_removeClaim_self, herase,
      List.erase_cons_head]
    rfl
  have hval : validate fuel (removeClaim st (completionKey c) g1) h0 =
      (setCurrent
        (markComplete
          (setCurrent (removeClaim (removeClaim st (completionKey c) g1) (completionKey c) h0)
            h0 none)
          c' h0)
        h0 (some c'),
       [Signal.onMatch h0]) := by
    rw [validate_eq fuel _ h0 gh hgh', hMr,
      sole_claimant_release fuel st (completionKey c) g1 h0 ch hch hchk herase]
    simp [hcnt]
  rw [hstep, hval]
  have hlenX : (markComplete
      (setCurrent (removeClaim (removeClaim st (completionKey c) g1) (completionKey c) h0)
        h0 none)
      c' h0).groups.length = st.groups.length := by
    rw [markComplete_groups, setCurrent_groups_length, removeClaim_groups, removeClaim_groups]
  refine ⟨rfl, ?_, ?_, ?_⟩
  · exact currentOf_setCurrent_self _ h0 (some c') (by omega)
  · rw [claimantsOf_setCurrent, claimantsOf, markComplete_complete, ← hkey,
      lookupKey_setKey_self, Option.getD_some, hkey, claimantsOf_setCurrent,
      claimantsOf_removeClaim_self, claimantsOf_removeClaim_self, herase,
      List.erase_cons_head, List.nil_append]
  · simp

/-! ### Characterizing the release phase and repeated revalidation -/

/-- Characterization of the release phase from local facts: the group's claim
is spliced out, and when exactly one claimant remains — one whose own state
still selects a completion with the same key — that claimant revalidates to an
identical state, re-signalling unique-match. -/
theorem release_char' (fuel : Nat) (s : SysState) (gid : Nat) (c0 : List String)
    (hcur : currentOf s gid = some c0)
    (hclaim : gid ∈ claimantsOf s (completionKey c0))
    (hrest : ∀ h0, (claimantsOf s (completionKey c0)).erase gid = [h0] →
      h0 ≠ gid ∧ ∃ ch, currentOf s h0 = some ch ∧ completionKey ch = completionKey c0 ∧
        ch ∈ s.completions ∧ matchesFrom (slotsOf s h0) 0 ch = true ∧
        (∀ c' ∈ s.completions, c'.length = (slotsOf s h0).length)) :
    releasePhase (fuel + 1) s gid =
      (setCurrent (removeClaim s (completionKey c0) gid) gid none,
       if ((claimantsOf s (completionKey c0)).erase gid).length = 1 then
         [Signal.onMatch (((claimantsOf s (completionKey c0)).erase gid).headD 0)]
       else []) := by
  rw [releasePhase_some (fuel + 1) s gid c0 hcur, markIncomplete_claims (fuel + 1) s c0 gid hclaim]
  by_cases hlen : ((claimantsOf s (completionKey c0)).erase gid).length = 1
  · rw [if_pos hlen]
    obtain ⟨h0, hrem⟩ := List.length_eq_one.mp hlen
    obtain ⟨-, ch, hch, hchk, hmem, hmf, harr⟩ := hrest h0 hrem
    rw [hrem]
    have hred : (match fuel + 1 with
        | f + 1 => validate f (removeClaim s (completionKey c0) gid) (([h0] : List Nat).headD 0)
        | 0 => (removeClaim s (completionKey c0) gid, []))
        = validate fuel (removeClaim s (completionKey c0) gid) h0 := rfl
    rw [hred]
    have hch' : currentOf (removeClaim s (completionKey c0) gid) h0 = some ch := hch
    have hnest := nested_id fuel (removeClaim s (completionKey c0) gid) h0 ch hch'
      (by rw [removeClaim_completions]; exact hmem)
      (by rw [slotsOf_removeClaim]; exact hmf)
      (fun c' hc' => by
        rw [removeClaim_completions] at hc'
        rw [slotsOf_removeClaim]
        exact harr c' hc')
      (by rw [hchk, claimantsOf_removeClaim_self, hrem])
    rw [hnest]
    rfl
  · rw [if_neg hlen, if_neg hlen]

/-- The release-phase characterization under the reachable-state invariant. -/
theorem release_char (fuel : Nat) (st : SysState) (gid : Nat) (c0 : List String)
    (hwf : wfB st = true) (har : arityB st = true) (hok : currentOkB st = true)
    (hcur : currentOf st gid = some c0) :
    releasePhase (fuel + 1) st gid =
      (setCurrent (removeClaim st (completionKey c0) gid) gid none,
       if ((claimantsOf st (completionKey c0)).erase gid).length = 1 then
         [Signal.onMatch (((claimantsOf st (completionKey c0)).erase gid).headD 0)]
       else []) := by
  have hclaim := wf_current_claimed st gid c0 hwf hcur
  apply release_char' fuel st gid c0 hcur hclaim
  intro h0 hrem
  obtain ⟨hne0, hlt0, ch, hch, hchk⟩ :=
    remaining_claimant_facts st (completionKey c0) gid h0 hwf hclaim hrem
  obtain ⟨hmem, hmf⟩ := currentOk_spec st hok h0 ch hch
  exact ⟨hne0, ch, hch, hchk, hmem, hmf, fun c' hc' => arity_spec st har h0 c' hlt0 hc'⟩

theorem validate_eq_cons (fuel : Nat) (st : SysState) (gid : Nat) (g : GroupState)
    (m : List String) (ms : List (List String)) (hg : st.groups.get? gid = some g)
    (hM : computeMatches st.completions g.slots = m :: ms) :
    validate fuel st gid =
      (setCurrent (markComplete (releasePhase fuel st gid).1 m gid) gid (some m),
       (releasePhase fuel st gid).2 ++
         [if completionCount (releasePhase fuel st gid).1 m == 0 then Signal.onMatch gid
          else Signal.onDuplicate gid]) := by
  rw [validate_eq fuel st gid g hg, hM]

theorem validate_eq_nil (fuel : Nat) (st : SysState) (gid : Nat) (g : GroupState)
    (hg : st.groups.get? gid = some g)
    (hM : computeMatches st.completions g.slots = []) :
    validate fuel st gid =
      ((releasePhase fuel st gid).1, (releasePhase fuel st gid).2 ++ [Signal.onNoMatch gid]) := by
  rw [validate_eq fuel st gid g hg, hM]

/-- A revalidation of a group that already holds the first surviving
completion restores the state exactly: the claim is released and re-registered
(with an identical claimant table), and the group's signal is determined by
the number of other claimants. -/
theorem revalidate_fixpoint (fuel : Nat) (s1 : SysState) (gid : Nat) (m : List String)
    (ms : List (List String)) (X : List Nat)
    (hg : gid < s1.groups.length)
    (hM : computeMatches s1.completions (slotsOf s1 gid) = m :: ms)
    (hcur : currentOf s1 gid = some m)
    (hcl : claimantsOf s1 (completionKey m) = X ++ [gid])
    (hgidX : gid ∉ X)
    (hrest : ∀ h0 ∈ X, h0 ≠ gid ∧ ∃ ch, currentOf s1 h0 = some ch ∧
        completionKey ch = completionKey m ∧ ch ∈ s1.completions ∧
        matchesFrom (slotsOf s1 h0) 0 ch = true ∧
        (∀ c' ∈ s1.completions, c'.length = (slotsOf s1 h0).length)) :
    (validate (fuel + 1) s1 gid).1 = s1 ∧
    sigsFor gid (validate (fuel + 1) s1 gid).2 =
      [if X.length = 0 then Signal.onMatch gid else Signal.onDuplicate gid] := by
  obtain ⟨g, hgg⟩ := get?_of_lt s1.groups gid hg
  have hslots : slotsOf s1 gid = g.slots := by rw [slotsOf, hgg]
  have hM' : computeMatches s1.completions g.slots = m :: ms := hslots ▸ hM
  have herase : (claimantsOf s1 (completionKey m)).erase gid = X := by
    rw [hcl, List.erase_append_right _ hgidX]
    simp
  have hclaim : gid ∈ claimantsOf s1 (completionKey m) := by
    rw [hcl]
    exact List.mem_append_right X (List.mem_singleton.mpr rfl)
  have hol : lookupKey s1.complete (completionKey m) = some (X ++ [gid]) := by
    have h1 := claimantsOf_lookup s1 (completionKey m) gid hclaim
    rw [hcl] at h1
    exact h1
  have hrest' : ∀ h0, (claimantsOf s1 (completionKey m)).erase gid = [h0] →
      h0 ≠ gid ∧ ∃ ch, currentOf s1 h0 = some ch ∧
        completionKey ch = completionKey m ∧ ch ∈ s1.completions ∧
        matchesFrom (slotsOf s1 h0) 0 ch = true ∧
        (∀ c' ∈ s1.completions, c'.length = (slotsOf s1 h0).length) := by
    intro h0 h
    rw [herase] at h
    exact hrest h0 (by rw [h]; exact List.mem_singleton.mpr rfl)
  have hrel := release_char' fuel s1 gid m hcur hclaim hrest'
  have hrel1 : (releasePhase (fuel + 1) s1 gid).1
      = setCurrent (removeClaim s1 (completionKey m) gid) gid none := by
    rw [hrel]
  have hrel2 : (releasePhase (fuel + 1) s1 gid).2
      = (if X.length = 1 then [Signal.onMatch (X.headD 0)] else []) := by
    rw [hrel, herase]
  have hXr : claimantsOf (setCurrent (removeClaim s1 (completionKey m) gid) gid none)
      (completionKey m) = X := by
    rw [claimantsOf_setCurrent, claimantsOf_removeClaim_self, herase]
  have hRc : (setCurrent (removeClaim s1 (completionKey m) gid) gid none).complete
      = setKey s1.complete (completionKey m) X := by
    rw [setCurrent_complete]
    show setKey s1.complete (completionKey m) ((claimantsOf s1 (completionKey m)).erase gid) = _
    rw [herase]
  have hcnt : completionCount (setCurrent (removeClaim s1 (completionKey m) gid) gid none) m
      = X.length := by
    rw [completionCount_eq_length, hXr]
  have hstate :
      setCurrent
        (markComplete (setCurrent (removeClaim s1 (completionKey m) gid) gid none) m gid)
        gid (some m) = s1 := by
    apply sysState_ext
    · simp [setCurrent]
    · rw [setCurrent_complete, markComplete_complete, hXr, hRc, setKey_setKey]
      exact setKey_lookup_self s1.complete (completionKey m) (X ++ [gid]) hol
    · have hgrps :
          (markComplete (setCurrent (removeClaim s1 (completionKey m) gid) gid none) m
            gid).groups
          = listModify (fun g => { g with currentCompletion := none }) gid s1.groups := by
        rw [markComplete_groups]
        rfl
      show listModify (fun g => { g with currentCompletion := some m }) gid
        (markComplete (setCurrent (removeClaim s1 (completionKey m) gid) gid none) m
          gid).groups = s1.groups
      rw [hgrps, listModify_listModify]
      exact congrArg SysState.groups (setCurrent_currentOf_self s1 gid (some m) hcur)
  rw [validate_eq_cons (fuel + 1) s1 gid g m ms hgg hM', hrel1, hrel2, hstate]
  refine ⟨rfl, ?_⟩
  have hnegid : ∀ s ∈ (if X.length = 1 then [Signal.onMatch (X.headD 0)] else []),
      sigGroup s ≠ gid := by
    by_cases hX1 : X.length = 1
    · rw [if_pos hX1]
      obtain ⟨h0, hX0⟩ := List.length_eq_one.mp hX1
      intro s hs
      rw [List.mem_singleton] at hs
      rw [hs]
      show X.headD 0 ≠ gid
      rw [hX0]
      exact (hrest h0 (by rw [hX0]; exact List.mem_singleton.mpr rfl)).1
    · rw [if_neg hX1]
      intro s hs
      exact absurd hs (List.not_mem_nil s)
  have howg : sigGroup (if completionCount
      (setCurrent (removeClaim s1 (completionKey m) gid) gid none) m == 0
      then Signal.onMatch gid else Signal.onDuplicate gid) = gid := by
    cases hcc : (completionCount
      (setCurrent (removeClaim s1 (completionKey m) gid) gid none) m == 0) <;>
      simp [hcc, sigGroup]
  rw [sigsFor_append_own gid _ _ hnegid howg, hcnt]
  cases X <;> simp

theorem claimantsOf_markComplete_self (st : SysState) (c : List String) (g : Nat) :
    claimantsOf (markComplete st c g) (completionKey c)
      = claimantsOf st (completionKey c) ++ [g] := by
  rw [claimantsOf, markComplete_complete, lookupKey_setKey_self]
  rfl

/-- The invariants package everything needed about a claimant of key `km`. -/
theorem claimant_package (st : SysState) (km : String) (h0 : Nat)
    (hwf : wfB st = true) (har : arityB st = true) (hok : currentOkB st = true)
    (hmem : h0 ∈ claimantsOf st km) :
    ∃ ch, currentOf st h0 = some ch ∧ completionKey ch = km ∧ ch ∈ st.completions ∧
      matchesFrom (slotsOf st h0) 0 ch = true ∧
      (∀ c' ∈ st.completions, c'.length = (slotsOf st h0).length) := by
  obtain ⟨hlt0, -, hkey0⟩ := wf_mem_claimants st km h0 hwf hmem
  rw [keyOfCurrent] at hkey0
  cases hc2 : currentOf st h0 with
  | none => rw [hc2] at hkey0; simp at hkey0
  | some ch =>
    rw [hc2] at hkey0
    obtain ⟨hmemc, hmf⟩ := currentOk_spec st hok h0 ch hc2
    exact ⟨ch, rfl, by simpa using hkey0, hmemc, hmf,
      fun c' hc' => arity_spec st har h0 c' hlt0 hc'⟩

/-- First-call analysis: from an invariant-satisfying state, a revalidation
that finds the non-empty match set `m :: ms` leaves a state satisfying the
hypotheses of `revalidate_fixpoint`, and its own signal for the group is
determined by the number of other claimants `X` of `m`'s key. -/
theorem validate_poststate (fuel : Nat) (st : SysState) (gid : Nat) (m : List String)
    (ms : List (List String))
    (hwf : wfB st = true) (har : arityB st = true) (hok : currentOkB st = true)
    (hg : gid < st.groups.length)
    (hM : computeMatches st.completions (slotsOf st gid) = m :: ms) :
    ∃ X : List Nat,
      gid ∉ X ∧
      claimantsOf (validate (fuel + 1) st gid).1 (completionKey m) = X ++ [gid] ∧
      currentOf (validate (fuel + 1) st gid).1 gid = some m ∧
      computeMatches (validate (fuel + 1) st gid).1.completions
        (slotsOf (validate (fuel + 1) st gid).1 gid) = m :: ms ∧
      gid < (validate (fuel + 1) st gid).1.groups.length ∧
      (∀ h0 ∈ X, h0 ≠ gid ∧ ∃ ch, currentOf (validate (fuel + 1) st gid).1 h0 = some ch ∧
          completionKey ch = completionKey m ∧
          ch ∈ (validate (fuel + 1) st gid).1.completions ∧
          matchesFrom (slotsOf (validate (fuel + 1) st gid).1 h0) 0 ch = true ∧
          (∀ c' ∈ (validate (fuel + 1) st gid).1.completions,
            c'.length = (slotsOf (validate (fuel + 1) st gid).1 h0).length)) ∧
      sigsFor gid (validate (fuel + 1) st gid).2
        = [if X.length = 0 then Signal.onMatch gid else Signal.onDuplicate gid] := by
  obtain ⟨g, hgg⟩ := get?_of_lt st.groups gid hg
  have hslots : slotsOf st gid = g.slots := by rw [slotsOf, hgg]
  have hM' : computeMatches st.completions g.slots = m :: ms := hslots ▸ hM
  have hframe := sameFrame_validate (fuel + 1) st gid
  have hV1 : (validate (fuel + 1) st gid).1
      = setCurrent (markComplete (releasePhase (fuel + 1) st gid).1 m gid) gid (some m) := by
    rw [validate_eq_cons (fuel + 1) st gid g m ms hgg hM']
  have hV2 : (validate (fuel + 1) st gid).2
      = (releasePhase (fuel + 1) st gid).2 ++
        [if completionCount (releasePhase (fuel + 1) st gid).1 m == 0 then Signal.onMatch gid
         else Signal.onDuplicate gid] := by
    rw [validate_eq_cons (fuel + 1) st gid g m ms hgg hM']
  -- gid is in no list after releasing its own claim
  have hgidnot : gid ∉ claimantsOf (releasePhase (fuel + 1) st gid).1 (completionKey m) := by
    cases hcur : currentOf st gid with
    | none =>
      rw [releasePhase_none (fuel + 1) st gid hcur]
      intro hmm
      obtain ⟨-, -, hkey⟩ := wf_mem_claimants st (completionKey m) gid hwf hmm
      rw [keyOfCurrent, hcur] at hkey
      exact absurd hkey (by simp)
    | some c0 =>
      rw [release_char fuel st gid c0 hwf har hok hcur]
      by_cases hk : completionKey m = completionKey c0
      · rw [claimantsOf_setCurrent, hk, claimantsOf_removeClaim_self]
        obtain ⟨-, hcount, -⟩ :=
          wf_mem_claimants st (completionKey c0) gid hwf (wf_current_claimed st gid c0 hwf hcur)
        have hcz := List.count_erase_self gid (claimantsOf st (completionKey c0))
        rw [hcount] at hcz
        exact List.count_eq_zero.mp (by omega)
      · rw [claimantsOf_setCurrent, claimantsOf_removeClaim_ne _ _ _ _ hk]
        intro hmm
        obtain ⟨-, -, hkey⟩ := wf_mem_claimants st (completionKey m) gid hwf hmm
        rw [keyOfCurrent, hcur] at hkey
        have : completionKey c0 = completionKey m := by simpa using hkey
        exact hk this.symm
  -- the other claimants of m's key at registration time
  refine ⟨claimantsOf (releasePhase (fuel + 1) st gid).1 (completionKey m), ?_, ?_, ?_, ?_, ?_, ?_, ?_⟩
  case refine_1 =>
    exact hgidnot
  case refine_2 =>
    rw [hV1, claimantsOf_setCurrent, claimantsOf_markComplete_self]
  case refine_3 =>
    rw [validate_currentOf (fuel + 1) st gid hg, hM]
    rfl
  case refine_4 =>
    rw [hframe.1, hframe.2.2 gid]
    exact hM
  case refine_5 =>
    have := hframe.2.1
    omega
  case refine_6 =>
    intro h0 hmem0
    -- h0 keeps its pre-call facts: only gid's fields moved
    have hne0 : h0 ≠ gid := fun he => hgidnot (he ▸ hmem0)
    -- membership in the pre-call table
    have hmemSt : h0 ∈ claimantsOf st (completionKey m) := by
      revert hmem0
      cases hcur : currentOf st gid with
      | none =>
        rw [releasePhase_none (fuel + 1) st gid hcur]
        exact id
      | some c0 =>
        rw [release_char fuel st gid c0 hwf har hok hcur]
        by_cases hk : completionKey m = completionKey c0
        · rw [claimantsOf_setCurrent, hk, claimantsOf_removeClaim_self]
          intro hmm
          exact List.mem_of_mem_erase hmm
        · rw [claimantsOf_setCurrent, claimantsOf_removeClaim_ne _ _ _ _ hk]
          exact id
    obtain ⟨ch, hch, hchk, hmemc, hmf, harr⟩ :=
      claimant_package st (completionKey m) h0 hwf har hok hmemSt
    refine ⟨hne0, ch, ?_, hchk, ?_, ?_, ?_⟩
    · -- current of h0 is untouched
      rw [hV1, currentOf_setCurrent_ne _ gid h0 _ hne0, currentOf_markComplete]
      cases hcur : currentOf st gid with
      | none => rw [releasePhase_none (fuel + 1) st gid hcur]; exact hch
      | some c0 =>
        rw [release_char fuel st gid c0 hwf har hok hcur]
        rw [currentOf_setCurrent_ne _ gid h0 _ hne0, currentOf_removeClaim]
        exact hch
    · rw [hframe.1]; exact hmemc
    · rw [hframe.2.2 h0]; exact hmf
    · intro c' hc'
      rw [hframe.1] at hc'
      rw [hframe.2.2 h0]
      exact harr c' hc'
  case refine_7 =>
    have howg : sigGroup (if completionCount (releasePhase (fuel + 1) st gid).1 m == 0
        then Signal.onMatch gid else Signal.onDuplicate gid) = gid := by
      cases hcc : (completionCount (releasePhase (fuel + 1) st gid).1 m == 0) <;>
        simp [hcc, sigGroup]
    rw [hV2, sigsFor_append_own gid _ _ (releasePhase_sigGroup_ne (fuel + 1) st gid hwf) howg]
    have hcnt : completionCount (releasePhase (fuel + 1) st gid).1 m
        = (claimantsOf (releasePhase (fuel + 1) st gid).1 (completionKey m)).length :=
      completionCount_eq_length _ m
    rw [hcnt]
    cases hXc : claimantsOf (releasePhase (fuel + 1) st gid).1 (completionKey m) <;> simp

/-- C6: revalidating twice with unchanged slot contents yields the same signal
for the group both times, and the second call has no observable side effect:
although the claim is released and re-registered, the resulting state — in
particular every completion's claimant count — is exactly the state before
that second call. -/
theorem c6_revalidate_idempotent (fuel1 fuel2 : Nat) (st : SysState) (gid : Nat)
    (hgood : goodState st = true) (hg : gid < st.groups.length) :
    (validate (fuel2 + 1) (validate (fuel1 + 1) st gid).1 gid).1
      = (validate (fuel1 + 1) st gid).1 ∧
    sigsFor gid (validate (fuel2 + 1) (validate (fuel1 + 1) st gid).1 gid).2
      = sigsFor gid (validate (fuel1 + 1) st gid).2 ∧
    (∀ c, completionCount (validate (fuel2 + 1) (validate (fuel1 + 1) st gid).1 gid).1 c
      = completionCount (validate (fuel1 + 1) st gid).1 c) := by
  obtain ⟨hwf, har, hok⟩ : wfB st = true ∧ arityB st = true ∧ currentOkB st = true := by
    rw [goodState, Bool.and_eq_true, Bool.and_eq_true] at hgood
    exact ⟨hgood.1.1, hgood.1.2, hgood.2⟩
  obtain ⟨g, hgg⟩ := get?_of_lt st.groups gid hg
  have hslots : slotsOf st gid = g.slots := by rw [slotsOf, hgg]
  cases hM : computeMatches st.completions (slotsOf st gid) with
  | nil =>
    have hM' : computeMatches st.completions g.slots = [] := hslots ▸ hM
    have hV1 := validate_eq_nil (fuel1 + 1) st gid g hgg hM'
    have hcurS : currentOf (validate (fuel1 + 1) st gid).1 gid = none := by
      rw [validate_currentOf (fuel1 + 1) st gid hg, hM]
      rfl
    have hframe := sameFrame_validate (fuel1 + 1) st gid
    have hgS : gid < (validate (fuel1 + 1) st gid).1.groups.length := by
      have := hframe.2.1
      omega
    obtain ⟨gS, hggS⟩ := get?_of_lt _ gid hgS
    have hslotsS : slotsOf (validate (fuel1 + 1) st gid).1 gid = gS.slots := by
      rw [slotsOf, hggS]
    have hMS : computeMatches (validate (fuel1 + 1) st gid).1.completions gS.slots = [] := by
      rw [← hslotsS, hframe.1, hframe.2.2 gid]
      exact hM
    have hV2 := validate_eq_nil (fuel2 + 1) (validate (fuel1 + 1) st gid).1 gid gS hggS hMS
    have hrel2 : releasePhase (fuel2 + 1) (validate (fuel1 + 1) st gid).1 gid
        = ((validate (fuel1 + 1) st gid).1, []) := releasePhase_none _ _ _ hcurS
    have hLHS : sigsFor gid ([] ++ [Signal.onNoMatch gid]) = [Signal.onNoMatch gid] :=
      sigsFor_append_own gid [] _ (fun s hs => absurd hs (List.not_mem_nil s)) rfl
    have hRHS : sigsFor gid ((releasePhase (fuel1 + 1) st gid).2 ++ [Signal.onNoMatch gid])
        = [Signal.onNoMatch gid] :=
      sigsFor_append_own gid _ _ (releasePhase_sigGroup_ne (fuel1 + 1) st gid hwf) rfl
    refine ⟨?_, ?_, ?_⟩
    · rw [hV2, hrel2]
    · have h2 : (validate (fuel2 + 1) (validate (fuel1 + 1) st gid).1 gid).2
          = [] ++ [Signal.onNoMatch gid] := by
        rw [hV2, hrel2]
      have h1 : (validate (fuel1 + 1) st gid).2
          = (releasePhase (fuel1 + 1) st gid).2 ++ [Signal.onNoMatch gid] := by
        rw [hV1]
      rw [h2, h1, hLHS, hRHS]
    · intro c
      rw [hV2, hrel2]
  | cons m ms =>
    obtain ⟨X, hgidX, hcl, hcurS, hMS, hgS, hrest, hsig1⟩ :=
      validate_poststate fuel1 st gid m ms hwf har hok hg hM
    obtain ⟨hfix, hsig2⟩ :=
      revalidate_fixpoint fuel2 (validate (fuel1 + 1) st gid).1 gid m ms X hgS hMS hcurS hcl
        hgidX hrest
    refine ⟨hfix, ?_, fun c => by rw [hfix]⟩
    rw [hsig2, hsig1]

/-- C10: evaluating the drag-drop model on a single-respawner board. Dragging
the respawner's letter off (which replenishes a fresh letter) and dropping it
away from every eligible home sends it back to its origin; the purge of the
replacement letter calls `removeLetter(this._letter)` where `_letter` is not a
field of `Letter`, so the splice is a no-op and the home ends holding TWO
letters, violating the zero-or-one occupancy of a Home. -/
theorem c10_home_two_letters :
    ((letterEnd (letterStart mkRespawnerWorld 0) 0 100 100).homes.get? 0).map
        (fun hs => hs.letters) = some [1, 0] := by
  decide

/-! ### Concrete witnesses -/

theorem c1_witness :
    0 ∈ claimantsOf (validate (0 + 1) wStA 0).1 (completionKey ["c", "a", "t"]) ∧
    sigsFor 0 (validate (0 + 1) wStA 0).2 =
      [if completionCount (releasePhase (0 + 1) wStA 0).1 ["c", "a", "t"] = 0
       then Signal.onMatch 0 else Signal.onDuplicate 0] :=
  c1_register_and_signal 0 wStA 0 ["c", "a", "t"] [] (by decide) (by decide) (by decide)

theorem c2_witness :
    (markIncomplete (0 + 1) wStB ["c", "a", "t"] 0).2 = [Signal.onMatch 1] ∧
    currentOf (markIncomplete (0 + 1) wStB ["c", "a", "t"] 0).1 1 = some ["c", "a", "t"] ∧
    claimantsOf (markIncomplete (0 + 1) wStB ["c", "a", "t"] 0).1
      (completionKey ["c", "a", "t"]) = [1] ∧
    slotsOf (markIncomplete (0 + 1) wStB ["c", "a", "t"] 0).1 1 = slotsOf wStB 1 :=
  c2_release_retriggers_unique 0 wStB ["c", "a", "t"] 0 1 ["c", "a", "t"] []
    (by decide) (by decide) (Or.inl (by decide)) (by decide) (by decide)

theorem c3_witness :
    computeMatches wStA.completions (slotsOf wStA 0)
        = wStA.completions.filter (fun c => decide (matchesSlots (slotsOf wStA 0) c)) ∧
    currentOf (validate 0 wStA 0).1 0
        = wStA.completions.find? (fun c => decide (matchesSlots (slotsOf wStA 0) c)) ∧
    (wStA.completions.find? (fun c => decide (matchesSlots (slotsOf wStA 0) c)) = none →
        Signal.onNoMatch 0 ∈ (validate 0 wStA 0).2) :=
  c3_filter_and_first 0 wStA 0 (by decide) (by decide)

theorem c4_witness :
    computeMatches wStC.completions (slotsOf wStC 0) = [] ∧
    currentOf (validate 0 wStC 0).1 0 = none ∧
    Signal.onNoMatch 0 ∈ (validate 0 wStC 0).2 :=
  c4_empty_slot_no_match 0 wStC 0 (by decide) (by decide)

theorem c5_witness :
    (∀ c, currentOf (validate 0 wStA 0).1 0 = some c →
        c ∈ wStA.completions ∧ matchesSlots (slotsOf (validate 0 wStA 0).1 0) c ∧
        ∀ c' ∈ wStA.completions, matchesSlots (slotsOf (validate 0 wStA 0).1 0) c' → c' = c) ∧
    ((∀ c' ∈ wStA.completions, ¬ matchesSlots (slotsOf (validate 0 wStA 0).1 0) c') →
        currentOf (validate 0 wStA 0).1 0 = none) :=
  c5_matched_invariant 0 wStA 0 (by decide) (by decide)

theorem c6_witness :
    (validate (0 + 1) (validate (0 + 1) wStB 0).1 0).1 = (validate (0 + 1) wStB 0).1 ∧
    sigsFor 0 (validate (0 + 1) (validate (0 + 1) wStB 0).1 0).2
      = sigsFor 0 (validate (0 + 1) wStB 0).2 ∧
    (∀ c, completionCount (validate (0 + 1) (validate (0 + 1) wStB 0).1 0).1 c
      = completionCount (validate (0 + 1) wStB 0).1 c) :=
  c6_revalidate_idempotent 0 0 wStB 0 (by decide) (by decide)

theorem c7_witness :
    markIncomplete 0 wStB ["c", "a", "t"] 5 = (wStB, []) :=
  c7_release_missing_noop 0 wStB ["c", "a", "t"] 5 (by
    intro L hL
    have h2 : lookupKey wStB.complete (completionKey ["c", "a", "t"]) = some [0, 1] := by
      decide
    rw [h2] at hL
    have h3 : ([0, 1] : List Nat) = L := Option.some_injective _ hL
    rw [← h3]
    decide)

theorem c8_witness :
    ∃ ow, sigsFor 0 (validate (0 + 1) wStB 0).2 = [ow] ∧
      (ow = Signal.onMatch 0 ∨ ow = Signal.onDuplicate 0 ∨ ow = Signal.onNoMatch 0) :=
  c8_exactly_one_signal 0 wStB 0 (by decide) (by decide)

theorem c9_witness :
    markComplete wStA ["ab", "c"] 0 = markComplete wStA ["a", "bc"] 0 ∧
    markIncomplete 0 wStA ["ab", "c"] 0 = markIncomplete 0 wStA ["a", "bc"] 0 ∧
    completionCount wStA ["ab", "c"] = completionCount wStA ["a", "bc"] :=
  c9_key_collision 0 wStA 0 ["ab", "c"] ["a", "bc"] (by decide) (by decide)
